import Mathlib

/-!
Verification development for the nicehist prediction and frecency engine.

The definitions below are a shallow embedding of the Rust sources:
  - `src/daemon/src/prediction/parser.rs` (command parser),
  - `src/daemon/src/db/mod.rs` (store, ingestion, deletion, n-gram bonus,
    prediction scoring, frecency engine).

Machine floats (`f64`) are modelled as `ℚ` where the source only uses
field operations and comparisons (the frecency engine), and as `ℝ` where
it uses `ln`/`exp` (the prediction scores).  Machine integers are `Int`/`Nat`.
Fallible database statements are modelled by an explicit failure oracle:
each SQL statement either applies its effect atomically or fails, exactly
as `rusqlite`'s `execute` behaves under the `?` operator.
-/

/-! ## Command parser (`parser.rs`) -/

/-- Structured command, mirroring `ParsedCommand` in `parser.rs`. -/
structure ParsedCommand where
  program : String
  subcommand : Option String
  args : List String
  full : String
deriving Repr, DecidableEq

/-- Worker for `tokenize` in `parser.rs`: a character-by-character scan
tracking single/double-quote state.  `cur` accumulates the current token's
characters in reverse (the Rust code slices the original string; the slice
is exactly the characters consumed since `token_start`). -/
def tokenizeGo : List Char → Bool → Bool → Option (List Char) → List String → List String
  | [], _, _, cur, acc =>
    match cur with
    | some t => acc ++ [String.mk t.reverse]
    | none => acc
  | c :: rest, inS, inD, cur, acc =>
    if c = '\'' ∧ ¬ inD then
      tokenizeGo rest (!inS) inD (some (c :: cur.getD [])) acc
    else if c = '"' ∧ ¬ inS then
      tokenizeGo rest inS (!inD) (some (c :: cur.getD [])) acc
    else if (c = ' ' ∨ c = '\t') ∧ ¬ inS ∧ ¬ inD then
      match cur with
      | some t => tokenizeGo rest inS inD none (acc ++ [String.mk t.reverse])
      | none => tokenizeGo rest inS inD none acc
    else
      tokenizeGo rest inS inD (some (c :: cur.getD [])) acc

/-- `tokenize` from `parser.rs`: quote-aware splitting on spaces and tabs. -/
def tokenize (cmd : String) : List String :=
  tokenizeGo cmd.data false false none []

/-- `SUBCOMMAND_PROGRAMS` from `parser.rs`. -/
def subcommandPrograms : List String :=
  ["git", "docker", "docker-compose", "kubectl", "npm", "yarn", "pnpm",
   "cargo", "rustup", "go", "pip", "poetry", "conda", "brew", "apt",
   "systemctl", "journalctl", "aws", "gcloud", "az", "terraform",
   "make", "cmake", "gradle", "mvn", "dotnet", "mix", "bundle"]

/-- ASCII lowercasing of one character (Rust `eq_ignore_ascii_case` support). -/
def asciiLowerChar (c : Char) : Char :=
  if 'A' ≤ c ∧ c ≤ 'Z' then Char.ofNat (c.toNat + 32) else c

/-- ASCII lowercasing of a string. -/
def asciiLower (s : String) : String :=
  String.mk (s.data.map asciiLowerChar)

/-- Rust `str::trim`: strip leading and trailing whitespace. -/
def trimWS (s : String) : String :=
  String.mk (((s.data.dropWhile Char.isWhitespace).reverse.dropWhile
    Char.isWhitespace).reverse)

/-- Rust `str::starts_with` with a `char` pattern. -/
def startsWithChar (s : String) (c : Char) : Bool :=
  match s.data with
  | [] => false
  | c2 :: _ => c2 == c

/-- `parse_command` from `parser.rs`. -/
def parseCommand (cmd : String) : ParsedCommand :=
  let original := cmd
  let tokens := tokenize (trimWS cmd)
  match tokens with
  | [] => ⟨"", none, [], original⟩
  | program :: rest =>
    let hasSub := subcommandPrograms.any (fun p => asciiLower p == asciiLower program)
    match rest with
    | [] => ⟨program, none, [], original⟩
    | t1 :: rest2 =>
      if hasSub then
        if ¬ startsWithChar t1 '-' then ⟨program, some t1, rest2, original⟩
        else ⟨program, none, t1 :: rest2, original⟩
      else ⟨program, none, t1 :: rest2, original⟩

/-- `ParsedCommand::is_partial` from `parser.rs`: the source tests
`self.full.ends_with(' ')` with a `char` pattern, i.e. whether the last
character of the original string is the ASCII space character. -/
def trailingSpace (p : ParsedCommand) : Bool :=
  p.full.data.getLast? == some ' '

/-- Modelled from the spec: "`partial` is true iff the original string ends
with whitespace".  This is the spec-side definition used to compare against
the source's `trailingSpace`. -/
def specEndsWithWhitespace (s : String) : Bool :=
  match s.data.getLast? with
  | some c => c.isWhitespace
  | none => false

/-- The guard of predict's argument-suggestion branch
(`db/mod.rs`, `expecting_args` in `Database::predict`). -/
def expectingArgsFlag (pfx : String) : Bool :=
  trailingSpace (parseCommand pfx) && !(parseCommand pfx).program.isEmpty

/-- Value-taking flags recognised by `extract_learnable_args` in `parser.rs`. -/
def valueFlagList : List String :=
  ["-m", "-b", "--message", "--branch", "-f", "--file"]

/-- `extract_learnable_args` from `parser.rs`.  String lengths are byte
lengths (`str::len`), here `String.utf8ByteSize`. -/
def extractLearnableArgs (parsed : ParsedCommand) : List String :=
  (List.range parsed.args.length).foldl (fun acc i =>
    let arg := parsed.args.getD i ""
    if startsWithChar arg '-' then acc
    else if 0 < i ∧ valueFlagList.contains (parsed.args.getD (i - 1) "") then
      let prev := parsed.args.getD (i - 1) ""
      if prev ≠ "-m" ∧ prev ≠ "--message" then acc ++ [arg] else acc
    else if 100 < arg.utf8ByteSize then acc
    else acc ++ [arg]) []

/-- The parser always stores the original string in `full`. -/
theorem parseCommand_full (s : String) : (parseCommand s).full = s := by
  unfold parseCommand
  cases tokenize (trimWS s) with
  | nil => rfl
  | cons program rest =>
    cases rest with
    | nil => rfl
    | cons t1 rest2 =>
      by_cases h : subcommandPrograms.any (fun p => asciiLower p == asciiLower program) = true <;>
        by_cases h2 : startsWithChar t1 '-' <;> simp [h, h2]

/-! ## Frecency engine (`db/mod.rs`): table model

`frecent_paths` rows; `rank REAL` is modelled as `ℚ` (the source only adds,
multiplies by constants, divides and compares ranks). -/

/-- One `frecent_paths` row. -/
structure FrecentRow where
  id : Int
  path : String
  pathType : String
  rank : ℚ
  lastAccess : Int
  accessCount : Nat
deriving Repr, DecidableEq

/-- SQLite rowid allocation: one more than the largest existing id. -/
def nextId (ids : List Int) : Int :=
  ids.foldl max 0 + 1

/-- Key lookup for the `UNIQUE(path, path_type)` constraint. -/
def frecentFind (tbl : List FrecentRow) (path pathType : String) : Option FrecentRow :=
  tbl.find? (fun r => r.path == path && r.pathType == pathType)

/-- The upsert of `frecent_add_with_conn` (`db/mod.rs` lines 559-582).
Import mode (`rank_override` supplied): `rank ← MAX(rank, override)`,
`last_access ← MAX(last_access, ts)`.  Normal mode: fasd formula
`rank ← rank + 1/MAX(rank, 0.01)`, `last_access ← ts`; fresh rows start
at rank 1.  In both modes `ts` is `timestamp_override.unwrap_or(now)`. -/
def frecentBump (tbl : List FrecentRow) (path pathType : String)
    (rankO : Option ℚ) (ts : Int) : List FrecentRow :=
  match rankO with
  | some rank =>
    if (frecentFind tbl path pathType).isSome then
      tbl.map (fun r =>
        if r.path == path && r.pathType == pathType then
          { r with rank := max r.rank rank,
                   lastAccess := max r.lastAccess ts,
                   accessCount := r.accessCount + 1 }
        else r)
    else tbl ++ [⟨nextId (tbl.map (·.id)), path, pathType, rank, ts, 1⟩]
  | none =>
    if (frecentFind tbl path pathType).isSome then
      tbl.map (fun r =>
        if r.path == path && r.pathType == pathType then
          { r with rank := r.rank + 1 / max r.rank (1 / 100),
                   lastAccess := ts,
                   accessCount := r.accessCount + 1 }
        else r)
    else tbl ++ [⟨nextId (tbl.map (·.id)), path, pathType, (1 : ℚ), ts, 1⟩]

/-- `SELECT COALESCE(SUM(rank), 0.0) FROM frecent_paths WHERE path_type = ?1`. -/
def sumRankType (tbl : List FrecentRow) (pathType : String) : ℚ :=
  ((tbl.filter (fun r => r.pathType == pathType)).map (·.rank)).sum

/-- `UPDATE frecent_paths SET rank = rank * 0.9 WHERE path_type = ?1`. -/
def decayType (tbl : List FrecentRow) (pathType : String) : List FrecentRow :=
  tbl.map (fun r =>
    if r.pathType == pathType then { r with rank := r.rank * (9 / 10) } else r)

/-- `DELETE FROM frecent_paths WHERE path_type = ?1 AND rank < 1.0`. -/
def pruneType (tbl : List FrecentRow) (pathType : String) : List FrecentRow :=
  tbl.filter (fun r => !(r.pathType == pathType && decide (r.rank < 1)))

/-- The aging block of `frecent_add_with_conn` (lines 584-603): if the
total rank for this `path_type` exceeds 2000, decay every row of the type
by 0.9 and prune rows with rank below 1. -/
def agingStep (tbl : List FrecentRow) (pathType : String) : List FrecentRow :=
  if 2000 < sumRankType tbl pathType then pruneType (decayType tbl pathType) pathType
  else tbl

/-- `frecent_add_with_conn` (table-level): bump then age. -/
def frecentAdd (tbl : List FrecentRow) (path pathType : String)
    (rankO : Option ℚ) (tsO : Option Int) (now : Int) : List FrecentRow :=
  agingStep (frecentBump tbl path pathType rankO (tsO.getD now)) pathType

/-- `frecency_score` from `db/mod.rs`: fasd's stepwise time-weighted score. -/
def frecencyScore (rank : ℚ) (lastAccess now : Int) : ℚ :=
  let age : ℚ := ((max (now - lastAccess) 0 : Int) : ℚ)
  let weight : ℚ :=
    if age < 3600 then 6
    else if age < 86400 then 4
    else if age < 604800 then 2
    else 1
  rank * weight

/-- Helper for `matches_ordered_substring`: drop everything up to and
including the first occurrence of `needle` in `hay` (Rust
`haystack[search_from..].find(&needle)` plus the cursor advance). -/
def dropAfterFirst (hay needle : List Char) : Option (List Char) :=
  if needle.isPrefixOf hay then some (hay.drop needle.length)
  else
    match hay with
    | [] => none
    | _ :: h => dropAfterFirst h needle

/-- Worker for `matches_ordered_substring`: each term must occur after the
previous term's match end. -/
def orderedGo (hay : List Char) (terms : List String) (ci : Bool) : Bool :=
  match terms with
  | [] => true
  | t :: ts =>
    let needle := if ci then t.toLower else t
    match dropAfterFirst hay needle.data with
    | none => false
    | some rest => orderedGo rest ts ci

/-- `matches_ordered_substring` from `db/mod.rs`. -/
def matchesOrderedSubstring (path : String) (terms : List String) (ci : Bool) : Bool :=
  let hay := if ci then path.toLower else path
  orderedGo hay.data terms ci

/-- Worker for `matches_fuzzy`: consume the path characters left to right,
matching the concatenated term characters in order (the char cursor is not
reset between terms). -/
def fuzzyGo : List Char → List Char → Bool
  | _, [] => true
  | [], _ :: _ => false
  | p :: ps, t :: ts => if p = t then fuzzyGo ps ts else fuzzyGo ps (t :: ts)

/-- `matches_fuzzy` from `db/mod.rs` (case-insensitive). -/
def matchesFuzzy (path : String) (terms : List String) : Bool :=
  fuzzyGo path.toLower.data ((terms.map (fun t => t.toLower.data)).flatten)

/-- One result of `frecent_query`, mirroring `FrecencyResult` in
`protocol.rs`; `rank`/`last_access` are only populated when `raw`. -/
structure FrecencyResult where
  path : String
  pathType : String
  score : ℚ
  rank : Option ℚ
  lastAccess : Option Int
deriving Repr, DecidableEq

/-- The candidate fetch of `frecent_query` (lines 613-621): when a
`path_type` filter is present, any value other than `"f"` is rewritten to
`"d"`; `None` fetches every row. -/
def frecentCandidates (tbl : List FrecentRow) (pathTypeQ : Option String) : List FrecentRow :=
  match pathTypeQ with
  | some pt => tbl.filter (fun r => r.pathType == (if pt == "f" then "f" else "d"))
  | none => tbl

/-- Build one query result from a row (lines 644-652 and the tier loops). -/
def mkFrecencyResult (raw : Bool) (now : Int) (r : FrecentRow) : FrecencyResult :=
  ⟨r.path, r.pathType, frecencyScore r.rank r.lastAccess now,
   if raw then some r.rank else none,
   if raw then some r.lastAccess else none⟩

/-- Sort results by score descending (`sort_by` on `partial_cmp`, stable). -/
def sortByScore (l : List FrecencyResult) : List FrecencyResult :=
  l.mergeSort (fun a b => decide (b.score ≤ a.score))

/-- `frecent_query` from `db/mod.rs`: fetch candidates ordered by rank
descending, then either score everything (no terms) or run the three-tier
matcher; sort by score and truncate. -/
def frecentQuery (tbl : List FrecentRow) (terms : List String)
    (pathTypeQ : Option String) (limit : Nat) (raw : Bool) (now : Int) :
    List FrecencyResult :=
  let candidates := (frecentCandidates tbl pathTypeQ).mergeSort
    (fun a b => decide (b.rank ≤ a.rank))
  if terms.isEmpty then
    (sortByScore (candidates.map (mkFrecencyResult raw now))).take limit
  else
    let tier1 := candidates.filter (fun r => matchesOrderedSubstring r.path terms false)
    let tier2 := if tier1.isEmpty then
        candidates.filter (fun r => matchesOrderedSubstring r.path terms true)
      else tier1
    let tier3 := if tier2.isEmpty then
        candidates.filter (fun r => matchesFuzzy r.path terms)
      else tier2
    (sortByScore (tier3.map (mkFrecencyResult raw now))).take limit

/-! ## Frecency aging and rank-positivity lemmas -/

/-- Unfolding `sumRankType` over a cons cell. -/
theorem sumRankType_cons (r : FrecentRow) (t : List FrecentRow) (pt : String) :
    sumRankType (r :: t) pt =
      (if (r.pathType == pt) = true then r.rank else 0) + sumRankType t pt := by
  by_cases h : (r.pathType == pt) = true <;> simp [sumRankType, List.filter_cons, h]

/-- Decaying a path type multiplies that type's rank total by 9/10. -/
theorem sumRankType_decayType (tbl : List FrecentRow) (pt : String) :
    sumRankType (decayType tbl pt) pt = (9 / 10) * sumRankType tbl pt := by
  induction tbl with
  | nil => simp [sumRankType, decayType]
  | cons r t ih =>
    have hd : decayType (r :: t) pt =
        (if (r.pathType == pt) = true then { r with rank := r.rank * (9 / 10) } else r)
          :: decayType t pt := by
      simp [decayType]
    rw [hd, sumRankType_cons, sumRankType_cons, ih]
    by_cases h : (r.pathType == pt) = true <;> simp [h] <;> ring

/-- Pruning only removes rows, so (for nonnegative ranks) it cannot
increase the rank total of a path type. -/
theorem sumRankType_pruneType_le (tbl : List FrecentRow) (pt : String)
    (h : ∀ r ∈ tbl, 0 ≤ r.rank) :
    sumRankType (pruneType tbl pt) pt ≤ sumRankType tbl pt := by
  induction tbl with
  | nil => simp [sumRankType, pruneType]
  | cons r t ih =>
    have ht : ∀ x ∈ t, 0 ≤ x.rank := fun x hx => h x (List.mem_cons_of_mem r hx)
    have hr : 0 ≤ r.rank := h r (List.mem_cons_self r t)
    have ihs := ih ht
    by_cases hk : (!(r.pathType == pt && decide (r.rank < 1))) = true
    · have hcons : pruneType (r :: t) pt = r :: pruneType t pt := by
        simp only [pruneType, List.filter_cons, hk, if_pos]
      rw [hcons, sumRankType_cons, sumRankType_cons]
      by_cases hp : (r.pathType == pt) = true
      · simp only [hp, if_true]
        linarith
      · simp only [hp, if_false]
        linarith
    · have hcons : pruneType (r :: t) pt = pruneType t pt := by
        simp only [pruneType, List.filter_cons]
        simp only [Bool.not_eq_true] at hk
        simp [hk]
      rw [hcons, sumRankType_cons]
      by_cases hp : (r.pathType == pt) = true
      · simp only [hp, if_true]
        linarith
      · exfalso
        have hk2 : (r.pathType == pt && decide (r.rank < 1)) = true := by
          cases hx : (r.pathType == pt && decide (r.rank < 1)) with
          | true => rfl
          | false => exact absurd (by simp [hx]) hk
        rw [Bool.and_eq_true] at hk2
        exact hp hk2.1

/-- Decay preserves nonnegativity of ranks. -/
theorem decayType_rank_nonneg (tbl : List FrecentRow) (pt : String)
    (h : ∀ r ∈ tbl, 0 ≤ r.rank) :
    ∀ r ∈ decayType tbl pt, 0 ≤ r.rank := by
  intro r hr
  rcases List.mem_map.mp hr with ⟨r0, hr0, hmap⟩
  have h0 := h r0 hr0
  by_cases hp : (r0.pathType == pt) = true
  · rw [← hmap]
    simp only [hp, if_pos]
    positivity
  · rw [← hmap]
    simp [hp, h0]

/-- Every survivor of pruning that belongs to the pruned path type has
rank at least 1. -/
theorem pruneType_survivors (tbl : List FrecentRow) (pt : String) :
    ∀ r ∈ pruneType tbl pt, r.pathType = pt → 1 ≤ r.rank := by
  intro r hr hp
  have h2 := (List.mem_filter.mp hr).2
  simp only [hp, beq_self_eq_true, Bool.true_and] at h2
  have h3 : ¬ (r.rank < 1) := by simpa using h2
  exact not_lt.mp h3

/-- Claim C4 (counterexample): a single import-mode `frecent_add` with rank
override 5000 into an empty store makes the post-bump total 5000, aging
fires, and the post-aging total is 4500, which exceeds 0.9 · 2000 = 1800:
the claimed bound `SUM(rank) ≤ 0.9 · 2000` is false. -/
theorem frecentAgingBoundCounterexample :
    2000 < sumRankType (frecentBump [] "/a" "d" (some 5000) 0) "d" ∧
    ¬ (sumRankType (frecentAdd [] "/a" "d" (some 5000) (some 0) 0) "d" ≤ (9 / 10) * 2000) := by
  constructor
  · simp [sumRankType, frecentBump, frecentFind, nextId]
    norm_num
  · simp [frecentAdd, agingStep, sumRankType, frecentBump, frecentFind, nextId,
      decayType, pruneType]
    norm_num

/-- Claim C4 (amended): immediately after aging fires for a `path_type`
(the post-bump total exceeded 2000), the surviving total for that type is
at most 0.9 times the post-bump total (not 0.9 · 2000), provided ranks are
nonnegative, and no surviving row of that type has rank below 1. -/
theorem frecentAgingBound (tbl : List FrecentRow) (path pathType : String)
    (rankO : Option ℚ) (tsO : Option Int) (now : Int)
    (hpos : ∀ r ∈ frecentBump tbl path pathType rankO (tsO.getD now), 0 ≤ r.rank)
    (hfire : 2000 < sumRankType (frecentBump tbl path pathType rankO (tsO.getD now)) pathType) :
    sumRankType (frecentAdd tbl path pathType rankO tsO now) pathType ≤
      (9 / 10) * sumRankType (frecentBump tbl path pathType rankO (tsO.getD now)) pathType ∧
    ∀ r ∈ frecentAdd tbl path pathType rankO tsO now, r.pathType = pathType → 1 ≤ r.rank := by
  set t1 := frecentBump tbl path pathType rankO (tsO.getD now) with ht1
  have hadd : frecentAdd tbl path pathType rankO tsO now =
      pruneType (decayType t1 pathType) pathType := by
    rw [frecentAdd, agingStep, ← ht1, if_pos hfire]
  constructor
  · rw [hadd]
    calc sumRankType (pruneType (decayType t1 pathType) pathType) pathType
        ≤ sumRankType (decayType t1 pathType) pathType :=
          sumRankType_pruneType_le _ _ (decayType_rank_nonneg _ _ hpos)
      _ = (9 / 10) * sumRankType t1 pathType := sumRankType_decayType _ _
  · rw [hadd]
    exact pruneType_survivors _ _

/-- Claim C4 (witness for the amended theorem): importing rank 5000 into
an empty store fires aging; afterwards the "d" total is at most 0.9 · 5000
and every "d" row has rank at least 1. -/
theorem frecentAgingBoundWitness :
    sumRankType (frecentAdd [] "/a" "d" (some 5000) (some 0) 0) "d" ≤
      (9 / 10) * sumRankType (frecentBump [] "/a" "d" (some 5000) 0) "d" ∧
    ∀ r ∈ frecentAdd [] "/a" "d" (some 5000) (some 0) 0, r.pathType = "d" → 1 ≤ r.rank :=
  frecentAgingBound [] "/a" "d" (some 5000) (some 0) 0
    (by simp [frecentBump, frecentFind, nextId])
    (by simp [sumRankType, frecentBump, frecentFind, nextId]
        norm_num)

/-- Claim C5 (counterexample): import mode accepts an arbitrary
caller-supplied rank; importing rank −1 into an empty store leaves a live
row with rank −1, violating the claimed `rank > 0` invariant. -/
theorem frecentRankPositiveCounterexample :
    ((frecentAdd [] "/a" "d" (some (-1)) (some 0) 0).map (·.rank)) = [(-1 : ℚ)] ∧
    ¬ ((0 : ℚ) < -1) := by
  constructor
  · simp [frecentAdd, agingStep, sumRankType, frecentBump, frecentFind, nextId,
      decayType, pruneType]
    norm_num
  · norm_num

/-- Positivity is preserved by the bump when any import override is positive. -/
theorem frecentBump_rank_pos (tbl : List FrecentRow) (path pathType : String)
    (rankO : Option ℚ) (ts : Int)
    (hinv : ∀ r ∈ tbl, 0 < r.rank)
    (hov : ∀ q, rankO = some q → 0 < q) :
    ∀ r ∈ frecentBump tbl path pathType rankO ts, 0 < r.rank := by
  intro r hr
  match hq : rankO with
  | some q =>
    have hqpos : 0 < q := hov q rfl
    unfold frecentBump at hr
    by_cases hf : (frecentFind tbl path pathType).isSome = true
    · simp only [hf, if_pos] at hr
      rcases List.mem_map.mp hr with ⟨r0, hr0, hmap⟩
      by_cases hk : (r0.path == path && r0.pathType == pathType) = true
      · rw [← hmap]
        simp only [hk, if_pos]
        exact lt_max_of_lt_left (hinv r0 hr0)
      · rw [← hmap]
        simp only [hk, if_neg]
        simp only [Bool.not_eq_true] at hk
        simp [hk]
        exact hinv r0 hr0
    · simp only [hf, if_neg] at hr
      rcases List.mem_append.mp hr with h1 | h1
      · exact hinv r h1
      · rw [List.mem_singleton.mp h1]
        exact hqpos
  | none =>
    unfold frecentBump at hr
    by_cases hf : (frecentFind tbl path pathType).isSome = true
    · simp only [hf, if_pos] at hr
      rcases List.mem_map.mp hr with ⟨r0, hr0, hmap⟩
      by_cases hk : (r0.path == path && r0.pathType == pathType) = true
      · rw [← hmap]
        simp only [hk, if_pos]
        have h0 := hinv r0 hr0
        have hm : (0 : ℚ) < max r0.rank (1 / 100) := lt_max_of_lt_left h0
        have : (0 : ℚ) < 1 / max r0.rank (1 / 100) := by positivity
        linarith
      · rw [← hmap]
        simp only [hk, if_neg]
        simp only [Bool.not_eq_true] at hk
        simp [hk]
        exact hinv r0 hr0
    · simp only [hf, if_neg] at hr
      rcases List.mem_append.mp hr with h1 | h1
      · exact hinv r h1
      · rw [List.mem_singleton.mp h1]
        norm_num

/-- Aging preserves positivity of ranks. -/
theorem agingStep_rank_pos (tbl : List FrecentRow) (pt : String)
    (h : ∀ r ∈ tbl, 0 < r.rank) :
    ∀ r ∈ agingStep tbl pt, 0 < r.rank := by
  intro r hr
  unfold agingStep at hr
  by_cases hc : 2000 < sumRankType tbl pt
  · rw [if_pos hc] at hr
    have hd := List.mem_filter.mp hr
    rcases List.mem_map.mp hd.1 with ⟨r0, hr0, hmap⟩
    have h0 := h r0 hr0
    by_cases hp : (r0.pathType == pt) = true
    · rw [← hmap]
      simp only [hp, if_pos]
      positivity
    · rw [← hmap]
      simp [hp, h0]
  · rw [if_neg hc] at hr
    exact h r hr

/-- Claim C5 (amended): `rank > 0` is an invariant of `frecent_paths`
under `frecent_add` in normal mode and aging, and under import mode
provided the caller-supplied rank override is positive; the source does
not validate the override, so an arbitrary non-positive override breaks
the invariant. -/
theorem frecentRankPositive (tbl : List FrecentRow) (path pathType : String)
    (rankO : Option ℚ) (tsO : Option Int) (now : Int)
    (hinv : ∀ r ∈ tbl, 0 < r.rank)
    (hov : ∀ q, rankO = some q → 0 < q) :
    ∀ r ∈ frecentAdd tbl path pathType rankO tsO now, 0 < r.rank := by
  intro r hr
  unfold frecentAdd at hr
  exact agingStep_rank_pos _ _
    (frecentBump_rank_pos tbl path pathType rankO (tsO.getD now) hinv hov) r hr

/-- Claim C5 (witness): a normal-mode bump of a fresh path in an empty
store leaves every row with positive rank. -/
theorem frecentRankPositiveWitness :
    (⟨1, "/w", "d", 1, 7, 1⟩ : FrecentRow) ∈ frecentAdd [] "/w" "d" none none 7 ∧
    0 < (⟨1, "/w", "d", 1, 7, 1⟩ : FrecentRow).rank :=
  have hmem : (⟨1, "/w", "d", 1, 7, 1⟩ : FrecentRow) ∈ frecentAdd [] "/w" "d" none none 7 := by
    simp [frecentAdd, frecentBump, frecentFind, agingStep, sumRankType, nextId]
  ⟨hmem, frecentRankPositive [] "/w" "d" none none 7
    (by intro r hr; simp at hr)
    (by intro q hq; cases hq)
    ⟨1, "/w", "d", 1, 7, 1⟩ hmem⟩

/-- Claim C10 (confirmed): in `frecent_query`, a `path_type` filter value
other than exactly `"f"` is silently rewritten to `"d"` (the query result
is identical to passing `"d"`), and only `path_type = None` disables the
candidate filter. -/
theorem frecentQueryPathTypeFilter :
    ∀ (tbl : List FrecentRow) (terms : List String) (limit : Nat) (raw : Bool)
      (now : Int) (pt : String), pt ≠ "f" →
      (frecentCandidates tbl (some pt) = tbl.filter (fun r => r.pathType == "d") ∧
       frecentQuery tbl terms (some pt) limit raw now =
         frecentQuery tbl terms (some "d") limit raw now) ∧
      frecentCandidates tbl none = tbl := by
  intro tbl terms limit raw now pt hpt
  have hbe : (pt == "f") = false := by
    simp [hpt]
  refine ⟨⟨?_, ?_⟩, rfl⟩
  · simp [frecentCandidates, hbe]
  · unfold frecentQuery
    simp [frecentCandidates, hbe]

/-- Claim C10 (witness): with filter value `"dir"` the candidates are the
directory rows and the query output matches the `"d"` query. -/
theorem frecentQueryPathTypeFilterWitness :
    (frecentCandidates [⟨1, "/x", "d", 2, 0, 1⟩, ⟨2, "/y", "f", 3, 0, 1⟩] (some "dir") =
       ([⟨1, "/x", "d", 2, 0, 1⟩, ⟨2, "/y", "f", 3, 0, 1⟩] :
         List FrecentRow).filter (fun r => r.pathType == "d") ∧
     frecentQuery [⟨1, "/x", "d", 2, 0, 1⟩, ⟨2, "/y", "f", 3, 0, 1⟩] [] (some "dir") 5 false 0 =
       frecentQuery [⟨1, "/x", "d", 2, 0, 1⟩, ⟨2, "/y", "f", 3, 0, 1⟩] [] (some "d") 5 false 0) ∧
    frecentCandidates [⟨1, "/x", "d", 2, 0, 1⟩, ⟨2, "/y", "f", 3, 0, 1⟩] none =
      [⟨1, "/x", "d", 2, 0, 1⟩, ⟨2, "/y", "f", 3, 0, 1⟩] :=
  frecentQueryPathTypeFilter [⟨1, "/x", "d", 2, 0, 1⟩, ⟨2, "/y", "f", 3, 0, 1⟩]
    [] 5 false 0 "dir" (by decide)

/-! ## Frecent export/import round trip -/

/-- Export of the whole table: `frecent_query` with no terms, no type
filter and `raw = true` (rank and last_access included). -/
def frecentExport (tbl : List FrecentRow) (limit : Nat) (now : Int) : List FrecencyResult :=
  frecentQuery tbl [] none limit true now

/-- Re-import one exported result via `frecent_add`, passing its rank and
last_access as the import-mode overrides. -/
def importRow (t : List FrecentRow) (res : FrecencyResult) (now : Int) : List FrecentRow :=
  frecentAdd t res.path res.pathType res.rank res.lastAccess now

/-- Re-import a list of exported results into an empty store. -/
def frecentImport (rs : List FrecencyResult) (now : Int) : List FrecentRow :=
  rs.foldl (fun t res => importRow t res now) []

/-- The observable content of a row for the round-trip claim. -/
def rowTuple (r : FrecentRow) : String × String × ℚ × Int :=
  (r.path, r.pathType, r.rank, r.lastAccess)

/-- The `UNIQUE(path, path_type)` key of a row. -/
def rowKey (r : FrecentRow) : String × String :=
  (r.path, r.pathType)

/-- The key of an exported result. -/
def resKey (res : FrecencyResult) : String × String :=
  (res.path, res.pathType)

/-- Total exported rank of a path type. -/
def resRankSum (rs : List FrecencyResult) (pt : String) : ℚ :=
  ((rs.filter (fun res => res.pathType == pt)).map (fun res => res.rank.getD 0)).sum

/-- `sumRankType` distributes over append. -/
theorem sumRankType_append (t1 t2 : List FrecentRow) (pt : String) :
    sumRankType (t1 ++ t2) pt = sumRankType t1 pt + sumRankType t2 pt := by
  simp [sumRankType, List.filter_append]

/-- `sumRankType` of a singleton. -/
theorem sumRankType_singleton (r : FrecentRow) (pt : String) :
    sumRankType [r] pt = if (r.pathType == pt) = true then r.rank else 0 := by
  by_cases h : (r.pathType == pt) = true <;> simp [sumRankType, h]

/-- `resRankSum` over a cons cell. -/
theorem resRankSum_cons (res : FrecencyResult) (rest : List FrecencyResult) (pt : String) :
    resRankSum (res :: rest) pt =
      (if (res.pathType == pt) = true then res.rank.getD 0 else 0) + resRankSum rest pt := by
  by_cases h : (res.pathType == pt) = true <;> simp [resRankSum, List.filter_cons, h]

/-- A key that is absent from the table makes `frecentFind` miss. -/
theorem frecentFind_eq_none (t : List FrecentRow) (path pathType : String)
    (h : (path, pathType) ∉ t.map rowKey) :
    frecentFind t path pathType = none := by
  rw [frecentFind, List.find?_eq_none]
  intro r hr hcond
  rw [Bool.and_eq_true, beq_iff_eq, beq_iff_eq] at hcond
  exact h (List.mem_map.mpr ⟨r, hr, by simp [rowKey, hcond.1, hcond.2]⟩)

set_option maxHeartbeats 1000000 in
/-- Importing raw results with fresh, pairwise-distinct keys and per-type
totals at most 2000 never fires aging and appends exactly the exported
tuples. -/
theorem importFold (now2 : Int) (rs : List FrecencyResult) :
    ∀ t : List FrecentRow,
      (∀ res ∈ rs, res.rank.isSome = true ∧ res.lastAccess.isSome = true) →
      (∀ res ∈ rs, 0 ≤ res.rank.getD 0) →
      ((t.map rowKey ++ rs.map resKey).Nodup) →
      (∀ pt, sumRankType t pt + resRankSum rs pt ≤ 2000) →
      (rs.foldl (fun t res => importRow t res now2) t).map rowTuple =
        t.map rowTuple ++ rs.map (fun res =>
          (res.path, res.pathType, res.rank.getD 0, res.lastAccess.getD now2)) := by
  induction rs with
  | nil =>
    intro t _ _ _ _
    simp
  | cons res rest ih =>
    intro t hraw hpos hkeys hsum
    obtain ⟨hrkS, hlaS⟩ := hraw res (List.mem_cons_self res rest)
    obtain ⟨q, hq⟩ := Option.isSome_iff_exists.mp hrkS
    obtain ⟨la, hla⟩ := Option.isSome_iff_exists.mp hlaS
    have hdisj : (t.map rowKey).Disjoint ((res :: rest).map resKey) :=
      (List.nodup_append.mp hkeys).2.2
    have hfresh : frecentFind t res.path res.pathType = none := by
      apply frecentFind_eq_none
      intro hmem
      exact hdisj hmem
        (List.mem_map.mpr ⟨res, List.mem_cons_self res rest, rfl⟩)
    have hbump : frecentBump t res.path res.pathType res.rank
        ((res.lastAccess).getD now2) =
        t ++ [⟨nextId (t.map (·.id)), res.path, res.pathType, q, la, 1⟩] := by
      rw [hq, hla]
      simp [frecentBump, hfresh]
    have hrestpos : 0 ≤ resRankSum rest res.pathType := by
      apply List.sum_nonneg
      intro x hx
      rcases List.mem_map.mp hx with ⟨res2, hres2, hmap⟩
      rw [← hmap]
      exact hpos res2 (List.mem_cons_of_mem res (List.mem_filter.mp hres2).1)
    have hnoage : agingStep
        (t ++ [⟨nextId (t.map (·.id)), res.path, res.pathType, q, la, 1⟩])
        res.pathType =
        t ++ [⟨nextId (t.map (·.id)), res.path, res.pathType, q, la, 1⟩] := by
      rw [agingStep, if_neg]
      rw [not_lt, sumRankType_append, sumRankType_singleton]
      have hs := hsum res.pathType
      rw [resRankSum_cons, hq] at hs
      simp only [beq_self_eq_true, if_true, Option.getD_some] at hs ⊢
      linarith
    have hstep : importRow t res now2 =
        t ++ [⟨nextId (t.map (·.id)), res.path, res.pathType, q, la, 1⟩] := by
      rw [importRow, frecentAdd, hbump, hnoage]
    have hkeys2 : ((t ++ [(⟨nextId (t.map (·.id)), res.path, res.pathType, q, la, 1⟩ :
          FrecentRow)]).map rowKey ++ rest.map resKey).Nodup := by
      have heq : (t ++ [(⟨nextId (t.map (·.id)), res.path, res.pathType, q, la, 1⟩ :
            FrecentRow)]).map rowKey ++ rest.map resKey =
          t.map rowKey ++ resKey res :: rest.map resKey := by
        simp [rowKey, resKey]
      rw [heq]
      simpa using hkeys
    have hsum2 : ∀ pt, sumRankType (t ++ [(⟨nextId (t.map (·.id)), res.path,
        res.pathType, q, la, 1⟩ : FrecentRow)]) pt + resRankSum rest pt ≤ 2000 := by
      intro pt
      have hs := hsum pt
      rw [resRankSum_cons, hq] at hs
      rw [sumRankType_append, sumRankType_singleton]
      cases hcb : (res.pathType == pt) with
      | true =>
        simp only [hcb, if_true, Option.getD_some] at hs ⊢
        linarith
      | false =>
        simp only [hcb] at hs ⊢
        simp at hs ⊢
        linarith
    rw [List.foldl_cons, hstep]
    rw [ih (t ++ [(⟨nextId (t.map (·.id)), res.path, res.pathType, q, la, 1⟩ : FrecentRow)])
      (fun r2 hr2 => hraw r2 (List.mem_cons_of_mem res hr2))
      (fun r2 hr2 => hpos r2 (List.mem_cons_of_mem res hr2))
      hkeys2 hsum2]
    simp [rowTuple, hq, hla]

/-- With `limit` at least the table size, the raw export is a permutation
of the table's rows rendered as raw results. -/
theorem frecentExport_perm (tbl : List FrecentRow) (limit : Nat) (now : Int)
    (hlim : tbl.length ≤ limit) :
    (frecentExport tbl limit now).Perm (tbl.map (mkFrecencyResult true now)) := by
  unfold frecentExport frecentQuery
  simp only [frecentCandidates, List.isEmpty_nil, if_true]
  rw [List.take_of_length_le]
  · exact (List.mergeSort_perm _ _).trans
      ((List.mergeSort_perm tbl _).map (mkFrecencyResult true now))
  · unfold sortByScore
    simpa using hlim

/-- Claim C8 (amended): the raw export/import round trip reproduces
`(path, path_type, rank, last_access)` for every row, provided the table
keys are unique (the table invariant), ranks are nonnegative, the export
limit covers the table, and every path type's rank total is at most 2000
— without the last hypothesis the import-side aging can fire and decay
already-imported rows. -/
theorem frecentRoundTrip (tbl : List FrecentRow) (limit : Nat) (now now2 : Int)
    (hkeys : (tbl.map rowKey).Nodup)
    (hpos : ∀ r ∈ tbl, 0 ≤ r.rank)
    (hsum : ∀ pt, sumRankType tbl pt ≤ 2000)
    (hlim : tbl.length ≤ limit) :
    ((frecentImport (frecentExport tbl limit now) now2).map rowTuple).Perm
      (tbl.map rowTuple) := by
  have hperm := frecentExport_perm tbl limit now hlim
  have hraw : ∀ res ∈ frecentExport tbl limit now,
      res.rank.isSome = true ∧ res.lastAccess.isSome = true := by
    intro res hres
    rcases List.mem_map.mp (hperm.mem_iff.mp hres) with ⟨r, _, hmk⟩
    rw [← hmk]
    simp [mkFrecencyResult]
  have hpos2 : ∀ res ∈ frecentExport tbl limit now, 0 ≤ res.rank.getD 0 := by
    intro res hres
    rcases List.mem_map.mp (hperm.mem_iff.mp hres) with ⟨r, hr, hmk⟩
    rw [← hmk]
    simpa [mkFrecencyResult] using hpos r hr
  have hmapkeys : (tbl.map (mkFrecencyResult true now)).map resKey = tbl.map rowKey := by
    rw [List.map_map]
    rfl
  have hkeys2 : ((([] : List FrecentRow)).map rowKey ++
      (frecentExport tbl limit now).map resKey).Nodup := by
    simp only [List.map_nil, List.nil_append]
    have hpk := hperm.map resKey
    rw [hmapkeys] at hpk
    exact hpk.nodup_iff.mpr hkeys
  have hsum2 : ∀ pt, sumRankType ([] : List FrecentRow) pt +
      resRankSum (frecentExport tbl limit now) pt ≤ 2000 := by
    intro pt
    have h1 : resRankSum (frecentExport tbl limit now) pt =
        resRankSum (tbl.map (mkFrecencyResult true now)) pt := by
      unfold resRankSum
      exact ((hperm.filter _).map _).sum_eq
    have h2 : resRankSum (tbl.map (mkFrecencyResult true now)) pt = sumRankType tbl pt := by
      unfold resRankSum sumRankType
      rw [List.filter_map, List.map_map]
      rfl
    rw [h1, h2]
    simpa [sumRankType] using hsum pt
  have hfold := importFold now2 (frecentExport tbl limit now) []
    hraw hpos2 hkeys2 hsum2
  rw [frecentImport, hfold]
  simp only [List.map_nil, List.nil_append]
  have hback : (tbl.map (mkFrecencyResult true now)).map
      (fun res => (res.path, res.pathType, res.rank.getD 0, res.lastAccess.getD now2)) =
      tbl.map rowTuple := by
    rw [List.map_map]
    rfl
  exact (hperm.map _).trans (by rw [hback])

/-- Table for the round-trip counterexample: two directory rows whose
rank total exceeds 2000. -/
def rtTable : List FrecentRow := [⟨1, "/a", "d", 1500, 0, 1⟩, ⟨2, "/b", "d", 1300, 0, 1⟩]

/-- Claim C8 (counterexample): exporting `rtTable` (total rank 2800) in
raw mode and re-importing into an empty store does not reproduce the rows:
importing the second row fires aging (2800 > 2000), decaying the first
imported row from 1500 to 1350. -/
theorem frecentRoundTripCounterexample :
    ("/a", "d", (1500 : ℚ), (0 : Int)) ∈ rtTable.map rowTuple ∧
    ("/a", "d", (1500 : ℚ), (0 : Int)) ∉
      (frecentImport (frecentExport rtTable 2 0) 0).map rowTuple := by
  have hexp : frecentExport rtTable 2 0 =
      [⟨"/a", "d", 9000, some 1500, some 0⟩, ⟨"/b", "d", 7800, some 1300, some 0⟩] := by
    unfold frecentExport frecentQuery
    rw [List.mergeSort_of_sorted (by decide)]
    simp only [frecentCandidates, rtTable]
    norm_num [mkFrecencyResult, frecencyScore, sortByScore]
    rw [List.mergeSort_of_sorted (by decide)]
    simp
  constructor
  · simp [rtTable, rowTuple]
  · rw [hexp]
    have himp : (frecentImport
        [⟨"/a", "d", 9000, some 1500, some 0⟩, ⟨"/b", "d", 7800, some 1300, some 0⟩] 0) =
        [⟨1, "/a", "d", 1350, 0, 1⟩, ⟨2, "/b", "d", 1170, 0, 1⟩] := by
      unfold frecentImport importRow
      simp only [List.foldl_cons, List.foldl_nil]
      have hne : ¬ (("/a" : String) = "/b") := by decide
      simp [frecentAdd, frecentBump, frecentFind, nextId, agingStep,
        sumRankType, decayType, pruneType, hne]
      norm_num [hne]
    rw [himp]
    simp [rowTuple]

/-- Claim C8 (witness for the amended theorem): a one-row table with rank
42 round-trips to a permutation of itself. -/
theorem frecentRoundTripWitness :
    ((frecentImport (frecentExport [⟨1, "/w", "d", 42, 5, 1⟩] 1 9) 9).map rowTuple).Perm
      (([⟨1, "/w", "d", 42, 5, 1⟩] : List FrecentRow).map rowTuple) :=
  frecentRoundTrip [⟨1, "/w", "d", 42, 5, 1⟩] 1 9 9
    (by decide)
    (by intro r hr; rw [List.mem_singleton.mp hr]; norm_num)
    (by
      intro pt
      by_cases h : ("d" == pt) = true <;>
        simp [sumRankType, List.filter_cons, h] <;> norm_num)
    (by decide)

/-! ## Prediction scoring (`db/mod.rs`, `predict_with_conn`)

The `f64` score arithmetic uses `ln` and `exp`, modelled over `ℝ`. -/

/-- `RankingWeights` from `protocol.rs`. -/
structure RankingWeights where
  frequency : ℝ
  recency : ℝ
  dirExact : ℝ
  dirHierarchy : ℝ
  failurePenalty : ℝ
  frecentBoostMax : ℝ
  ngram : ℝ

/-- `RankingWeights::default` from `protocol.rs`. -/
noncomputable def defaultWeights : RankingWeights :=
  ⟨0.35, 0.30, 0.35, 0.15, 0.5, 0.1, 0.40⟩

/-- Bigram bonus (`db/mod.rs` line 423-425):
`min((ln freq).max(0)/10, 1)`. -/
noncomputable def bigramBonus (freq : ℕ) : ℝ :=
  min (max (Real.log freq) 0 / 10) 1

/-- Trigram bonus (`db/mod.rs` line 399-400):
`min(((ln freq).max(0)/10) · 1.5, 1)`. -/
noncomputable def trigramBonus (freq : ℕ) : ℝ :=
  min (max (Real.log freq) 0 / 10 * 1.5) 1

/-- `HashMap::insert` on an association list: replace or append. -/
def insertReplace {α : Type} (tbl : List (String × α)) (c : String) (b : α) :
    List (String × α) :=
  if tbl.any (fun p => p.1 == c) then
    tbl.map (fun p => if p.1 == c then (c, b) else p)
  else tbl ++ [(c, b)]

/-- `HashMap::entry(..).or_insert(..)`: insert only if the key is absent. -/
def insertIfAbsent {α : Type} (tbl : List (String × α)) (c : String) (b : α) :
    List (String × α) :=
  if tbl.any (fun p => p.1 == c) then tbl else tbl ++ [(c, b)]

/-- Map lookup on the association list. -/
def lookupBonus {α : Type} (tbl : List (String × α)) (c : String) : Option α :=
  (tbl.find? (fun p => p.1 == c)).map (·.2)

/-- The in-memory n-gram bonus table of `predict_with_conn` (lines
371-429): trigram hits are inserted first with plain `insert`; the bigram
pass then uses `or_insert`, so an existing trigram entry is kept. -/
noncomputable def buildNgramBonus (triHits biHits : List (String × ℕ)) :
    List (String × ℝ) :=
  let t := triHits.foldl (fun tbl h => insertReplace tbl h.1 (trigramBonus h.2)) []
  biHits.foldl (fun tbl h => insertIfAbsent tbl h.1 (bigramBonus h.2)) t

/-- The unclamped weighted sum of `predict_with_conn` (lines 503-524):
`freq_score·w.frequency + recency_score·w.recency + dir_score +
frecent_boost + ngram_score`. -/
noncomputable def predictScoreSum (w : RankingWeights) (freq : ℕ)
    (lastUsed now : Int) (exactDirFreq : ℕ) (hierarchyScore : ℝ)
    (bonus frecentBoost : ℝ) : ℝ :=
  let ageDays : ℝ := ((now - lastUsed : Int) : ℝ) / 86400
  let recencyScore := Real.exp (-ageDays / 30)
  let freqScore := max (Real.log freq) 0 / 10
  let dirScore := if 0 < exactDirFreq then w.dirExact
    else if 0 < hierarchyScore then w.dirHierarchy * min hierarchyScore 1
    else 0
  freqScore * w.frequency + recencyScore * w.recency + dirScore +
    frecentBoost + bonus * w.ngram

/-- The final score of `predict_with_conn` (line 524): the sum clamped at
1, times the failure penalty `1 − failure_rate·w.failure_penalty`. -/
noncomputable def predictScore (w : RankingWeights) (freq : ℕ)
    (lastUsed now : Int) (exactDirFreq : ℕ) (hierarchyScore : ℝ)
    (failureRate bonus frecentBoost : ℝ) : ℝ :=
  min (predictScoreSum w freq lastUsed now exactDirFreq hierarchyScore bonus frecentBoost) 1 *
    (1 - failureRate * w.failurePenalty)

/-! ## N-gram bonus table lemmas (claim C2) -/

/-- Replacing the entry of a different key is invisible to `find?`. -/
theorem find?_map_replace {α : Type} (t : List (String × α)) (c c2 : String) (b : α)
    (h : c ≠ c2) :
    (t.map (fun p => if p.1 == c2 then (c2, b) else p)).find? (fun p => p.1 == c) =
      t.find? (fun p => p.1 == c) := by
  have hcc : ¬ ((c2 == c) = true) := by
    simp only [beq_iff_eq]
    exact fun hc => h hc.symm
  induction t with
  | nil => rfl
  | cons p t ih =>
    simp only [List.map_cons]
    by_cases hp : (p.1 == c2) = true
    · have hpc : (p.1 == c) = false := by
        rw [beq_iff_eq] at hp
        rw [beq_eq_false_iff_ne, hp]
        exact fun hc => h hc.symm
      have hcc2 : ((c2, b).1 == c) = false := by
        simp only [beq_eq_false_iff_ne]
        exact fun hc => h hc.symm
      rw [if_pos hp]
      simp only [List.find?_cons, hcc2, hpc]
      exact ih
    · rw [if_neg hp]
      simp only [List.find?_cons]
      cases hpc : (p.1 == c) with
      | true => rfl
      | false => exact ih

/-- `insertReplace` with a different key does not change a lookup. -/
theorem lookupBonus_insertReplace_ne {α : Type} (tbl : List (String × α))
    (c c2 : String) (b : α) (h : c ≠ c2) :
    lookupBonus (insertReplace tbl c2 b) c = lookupBonus tbl c := by
  unfold insertReplace lookupBonus
  by_cases ha : (tbl.any (fun p => p.1 == c2)) = true
  · rw [if_pos ha, find?_map_replace tbl c c2 b h]
  · rw [if_neg ha, List.find?_append]
    have hcc : ((c2, b).1 == c) = false := by
      simp only [beq_eq_false_iff_ne]
      exact fun hc => h hc.symm
    rw [List.find?_cons_of_neg _ (by simp [hcc])]
    simp

/-- `find?` after a self-key `insertReplace` map pass. -/
theorem find?_map_replace_self {α : Type} (t : List (String × α)) (c : String) (b : α) :
    (t.map (fun p => if p.1 == c then (c, b) else p)).find? (fun p => p.1 == c) =
      if (t.any (fun p => p.1 == c)) = true then some (c, b) else none := by
  induction t with
  | nil => rfl
  | cons p t ih =>
    simp only [List.map_cons, List.any_cons]
    by_cases hp : (p.1 == c) = true
    · rw [if_pos hp]
      simp [List.find?_cons, hp]
    · have hpf : (p.1 == c) = false := by simpa using hp
      rw [if_neg hp]
      simp only [List.find?_cons, hpf]
      rw [ih, Bool.false_or]

/-- `insertReplace` makes its own key's lookup return the new value. -/
theorem lookupBonus_insertReplace_self {α : Type} (tbl : List (String × α))
    (c : String) (b : α) :
    lookupBonus (insertReplace tbl c b) c = some b := by
  unfold insertReplace lookupBonus
  by_cases ha : (tbl.any (fun p => p.1 == c)) = true
  · rw [if_pos ha, find?_map_replace_self, if_pos ha]
    rfl
  · rw [if_neg ha, List.find?_append]
    have hnone : tbl.find? (fun p => p.1 == c) = none := by
      rw [List.find?_eq_none]
      intro p hp hkey
      exact ha (List.any_eq_true.mpr ⟨p, hp, hkey⟩)
    rw [hnone]
    simp [List.find?]

/-- A present key survives `insertIfAbsent` with its old value. -/
theorem lookupBonus_insertIfAbsent_of_some {α : Type} (tbl : List (String × α))
    (c c2 : String) (b b2 : α) (h : lookupBonus tbl c = some b) :
    lookupBonus (insertIfAbsent tbl c2 b2) c = some b := by
  unfold insertIfAbsent
  by_cases ha : (tbl.any (fun p => p.1 == c2)) = true
  · rw [if_pos ha]
    exact h
  · rw [if_neg ha]
    unfold lookupBonus at h ⊢
    rcases Option.map_eq_some'.mp h with ⟨p0, hf, hp2⟩
    rw [List.find?_append, hf]
    simp [hp2]

/-- The whole bigram `or_insert` pass preserves present entries. -/
theorem lookupBonus_biFold_of_some (biHits : List (String × ℕ)) :
    ∀ (tbl : List (String × ℝ)) (c : String) (b : ℝ),
      lookupBonus tbl c = some b →
      lookupBonus (biHits.foldl (fun t h => insertIfAbsent t h.1 (bigramBonus h.2)) tbl) c
        = some b := by
  induction biHits with
  | nil =>
    intro tbl c b h
    exact h
  | cons p rest ih =>
    intro tbl c b h
    rw [List.foldl_cons]
    exact ih _ c b (lookupBonus_insertIfAbsent_of_some tbl c p.1 b (bigramBonus p.2) h)

/-- A trigram `insert` pass over keys different from `c` preserves `c`'s
lookup. -/
theorem lookupBonus_triFold_ne (l : List (String × ℕ)) :
    ∀ (tbl : List (String × ℝ)) (c : String),
      (∀ p ∈ l, p.1 ≠ c) →
      lookupBonus (l.foldl (fun t h => insertReplace t h.1 (trigramBonus h.2)) tbl) c
        = lookupBonus tbl c := by
  induction l with
  | nil =>
    intro tbl c _
    rfl
  | cons p rest ih =>
    intro tbl c hne
    rw [List.foldl_cons]
    rw [ih _ c (fun p2 hp2 => hne p2 (List.mem_cons_of_mem p hp2))]
    exact lookupBonus_insertReplace_ne tbl c p.1 (trigramBonus p.2)
      (fun hc => hne p (List.mem_cons_self p rest) hc.symm)

/-- The trigram pass stores exactly the trigram bonus for each hit
(assuming one row per command, as the SQL grouping guarantees). -/
theorem lookupBonus_triFold_mem (triHits : List (String × ℕ)) :
    ∀ (tbl : List (String × ℝ)) (c : String) (f : ℕ),
      (c, f) ∈ triHits → (triHits.map Prod.fst).Nodup →
      lookupBonus (triHits.foldl (fun t h => insertReplace t h.1 (trigramBonus h.2)) tbl) c
        = some (trigramBonus f) := by
  induction triHits with
  | nil =>
    intro tbl c f hmem _
    cases hmem
  | cons p rest ih =>
    intro tbl c f hmem hnd
    rw [List.foldl_cons]
    have hnd2 : p.1 ∉ rest.map Prod.fst ∧ (rest.map Prod.fst).Nodup :=
      List.nodup_cons.mp (show (p.1 :: rest.map Prod.fst).Nodup by simpa using hnd)
    rcases List.mem_cons.mp hmem with h0 | h0
    · have hni : ∀ p2 ∈ rest, p2.1 ≠ c := by
        intro p2 hp2 hc
        apply hnd2.1
        have hpc : p.1 = c := by rw [← h0]
        rw [hpc, ← hc]
        exact List.mem_map_of_mem Prod.fst hp2
      rw [lookupBonus_triFold_ne rest _ c hni]
      have hpf : p.1 = c := by rw [← h0]
      have hps : trigramBonus p.2 = trigramBonus f := by rw [← h0]
      rw [hpf, hps]
      exact lookupBonus_insertReplace_self tbl c (trigramBonus f)
    · exact ih _ c f h0 hnd2.2

/-- Claim C2 (amended): in the in-memory n-gram bonus table, a command
matched by a trigram row always keeps the trigram bonus
`min(ln(freq)/10 · 1.5, 1)` — the trigram hit is inserted first and the
bigram pass uses insert-if-absent — even when the bigram bonus would be
higher.  (One trigram row per command, as the SQL `GROUP BY` guarantees.) -/
theorem ngramBonusTrigramWins (triHits biHits : List (String × ℕ))
    (c : String) (ft : ℕ)
    (hmem : (c, ft) ∈ triHits) (hnd : (triHits.map Prod.fst).Nodup) :
    lookupBonus (buildNgramBonus triHits biHits) c = some (trigramBonus ft) := by
  unfold buildNgramBonus
  exact lookupBonus_biFold_of_some biHits _ c (trigramBonus ft)
    (lookupBonus_triFold_mem triHits [] c ft hmem hnd)

/-- Claim C2 (witness): for a lone trigram hit of frequency 2, the table
holds its trigram bonus. -/
theorem ngramBonusTrigramWinsWitness :
    lookupBonus (buildNgramBonus [("x", 2)] []) "x" = some (trigramBonus 2) :=
  ngramBonusTrigramWins [("x", 2)] [] "x" 2 (by simp) (by simp)

/-- Claim C2 (counterexample): with a trigram hit of frequency 1 (bonus 0)
and a bigram hit of frequency 3 (bonus `ln 3 / 10 > 0`) for the same
command, the table keeps the lower trigram bonus, not the higher of the
two as claimed. -/
theorem ngramBonusHigherWinsCounterexample :
    lookupBonus (buildNgramBonus [("c", 1)] [("c", 3)]) "c" = some (trigramBonus 1) ∧
    trigramBonus 1 ≠ max (bigramBonus 3) (trigramBonus 1) := by
  constructor
  · rfl
  · have htri : trigramBonus 1 = 0 := by
      unfold trigramBonus
      norm_num [Real.log_one]
    have hlog3 : 0 < Real.log 3 := Real.log_pos (by norm_num)
    have hbi : 0 < bigramBonus 3 := by
      unfold bigramBonus
      have h3 : ((3 : ℕ) : ℝ) = 3 := by norm_num
      rw [h3, max_eq_left hlog3.le]
      apply lt_min
      · positivity
      · norm_num
    rw [htri]
    intro hcontra
    have : (0 : ℝ) < max (bigramBonus 3) 0 := lt_max_of_lt_left hbi
    rw [← hcontra] at this
    exact lt_irrefl 0 this

/-! ## Scoring laws (claims C6 and C7) -/

/-- The weighted sum is the bonus-free sum plus `bonus · w.ngram`. -/
theorem predictScoreSum_bonus (w : RankingWeights) (freq : ℕ)
    (lastUsed now : Int) (dirF : ℕ) (hier b fb : ℝ) :
    predictScoreSum w freq lastUsed now dirF hier b fb =
      predictScoreSum w freq lastUsed now dirF hier 0 fb + b * w.ngram := by
  simp only [predictScoreSum]
  ring

/-- Claim C6 (amended): with default weights, a trigram-backed candidate
of raw frequency `f` strictly outranks an otherwise identical
bigram-backed candidate of the same `f`, provided `f ≥ 2` (at `f = 1`
both bonuses are zero), `ln f < 10` (otherwise both bonuses clamp to 1),
and the bigram-side weighted sum is below the 1.0 clamp. -/
theorem trigramOutranksEqualFreqBigram (f freq : ℕ) (lastUsed now : Int)
    (dirF : ℕ) (hier fr frecB : ℝ)
    (hf : 2 ≤ f) (hlog : Real.log f < 10) (hfr0 : 0 ≤ fr) (hfr1 : fr ≤ 1)
    (hsum : predictScoreSum defaultWeights freq lastUsed now dirF hier (bigramBonus f) frecB < 1) :
    predictScore defaultWeights freq lastUsed now dirF hier fr (bigramBonus f) frecB <
      predictScore defaultWeights freq lastUsed now dirF hier fr (trigramBonus f) frecB := by
  have hf1 : (1 : ℝ) < (f : ℝ) := by
    have : (2 : ℝ) ≤ (f : ℝ) := by exact_mod_cast hf
    linarith
  have hlogpos : 0 < Real.log f := Real.log_pos hf1
  set x : ℝ := max (Real.log f) 0 / 10 with hx
  have hxval : x = Real.log f / 10 := by rw [hx, max_eq_left hlogpos.le]
  have hx0 : 0 < x := by
    rw [hxval]
    positivity
  have hx1 : x < 1 := by
    rw [hxval]
    linarith
  have hbi : bigramBonus f = x := by
    unfold bigramBonus
    rw [← hx]
    exact min_eq_left hx1.le
  have htri : x < trigramBonus f := by
    unfold trigramBonus
    rw [← hx]
    rcases le_or_lt (x * 1.5) 1 with h | h
    · rw [min_eq_left h]
      nlinarith
    · rw [min_eq_right h.le]
      exact hx1
  have hng : (0 : ℝ) < defaultWeights.ngram := by
    norm_num [defaultWeights]
  have hs2 : predictScoreSum defaultWeights freq lastUsed now dirF hier (bigramBonus f) frecB <
      predictScoreSum defaultWeights freq lastUsed now dirF hier (trigramBonus f) frecB := by
    rw [predictScoreSum_bonus defaultWeights freq lastUsed now dirF hier (bigramBonus f) frecB,
      predictScoreSum_bonus defaultWeights freq lastUsed now dirF hier (trigramBonus f) frecB,
      hbi]
    nlinarith
  unfold predictScore
  have hpen : 0 < 1 - fr * defaultWeights.failurePenalty := by
    have hp5 : defaultWeights.failurePenalty = 0.5 := rfl
    rw [hp5]
    linarith
  apply mul_lt_mul_of_pos_right _ hpen
  rw [min_eq_left hsum.le]
  exact lt_min (by linarith) hsum

/-- Claim C6 (counterexample): at raw frequency 1 both bonuses are 0
(`ln 1 = 0`), so the trigram-backed candidate's score is not strictly
higher — the claim's universal strict inequality fails. -/
theorem trigramOutranksCounterexample :
    ¬ (predictScore defaultWeights 1 0 0 0 0 0 (bigramBonus 1) 0 <
       predictScore defaultWeights 1 0 0 0 0 0 (trigramBonus 1) 0) := by
  have hb : bigramBonus 1 = 0 := by
    unfold bigramBonus
    norm_num [Real.log_one]
  have ht : trigramBonus 1 = 0 := by
    unfold trigramBonus
    norm_num [Real.log_one]
  rw [hb, ht]
  exact lt_irrefl _

/-- Claim C6 (witness): at raw frequency 3 with an unsaturated sum, the
trigram-backed candidate strictly outranks the bigram-backed one. -/
theorem trigramOutranksWitness :
    predictScore defaultWeights 1 0 0 0 0 0 (bigramBonus 3) 0 <
      predictScore defaultWeights 1 0 0 0 0 0 (trigramBonus 3) 0 := by
  have hlog3 : Real.log ((3 : ℕ) : ℝ) ≤ 2 := by
    push_cast
    linarith [Real.log_le_sub_one_of_pos (show (0:ℝ) < 3 by norm_num)]
  refine trigramOutranksEqualFreqBigram 3 1 0 0 0 0 0 0 (by norm_num) ?_ le_rfl (by norm_num) ?_
  · linarith
  · have hb3 : bigramBonus 3 ≤ 0.2 := by
      unfold bigramBonus
      calc min (max (Real.log ((3 : ℕ) : ℝ)) 0 / 10) 1 ≤ max (Real.log ((3 : ℕ) : ℝ)) 0 / 10 :=
            min_le_left _ _
        _ ≤ 2 / 10 := by
            gcongr
            exact max_le hlog3 (by norm_num)
        _ ≤ 0.2 := by norm_num
    unfold predictScoreSum
    norm_num [defaultWeights, Real.log_one, Real.exp_zero]
    linarith [hb3]

/-- Claim C7 (amended): with default weights, a failure rate in `[0, 1]`
and identical other inputs, the candidate with the more recent
`last_used` receives a score at least as high, and strictly higher
provided the older candidate's weighted sum is below the 1.0 clamp
(saturated candidates tie). -/
theorem recencyStrictMonotone (freq : ℕ) (l1 l2 now : Int) (dirF : ℕ)
    (hier fr bonus frecB : ℝ)
    (hl : l2 < l1) (hfr0 : 0 ≤ fr) (hfr1 : fr ≤ 1) :
    predictScore defaultWeights freq l2 now dirF hier fr bonus frecB ≤
      predictScore defaultWeights freq l1 now dirF hier fr bonus frecB ∧
    (predictScoreSum defaultWeights freq l2 now dirF hier bonus frecB < 1 →
      predictScore defaultWeights freq l2 now dirF hier fr bonus frecB <
        predictScore defaultWeights freq l1 now dirF hier fr bonus frecB) := by
  have hexp : Real.exp (-(((now - l2 : Int) : ℝ) / 86400) / 30) <
      Real.exp (-(((now - l1 : Int) : ℝ) / 86400) / 30) := by
    apply Real.exp_lt_exp.mpr
    have h1 : ((now - l1 : Int) : ℝ) < ((now - l2 : Int) : ℝ) := by
      exact_mod_cast sub_lt_sub_left hl now
    have h2 : ((now - l1 : Int) : ℝ) / 86400 < ((now - l2 : Int) : ℝ) / 86400 := by
      gcongr
    linarith
  have hrec : (0 : ℝ) < defaultWeights.recency := by
    norm_num [defaultWeights]
  have hs2 : predictScoreSum defaultWeights freq l2 now dirF hier bonus frecB <
      predictScoreSum defaultWeights freq l1 now dirF hier bonus frecB := by
    have hd : predictScoreSum defaultWeights freq l1 now dirF hier bonus frecB -
        predictScoreSum defaultWeights freq l2 now dirF hier bonus frecB =
        (Real.exp (-(((now - l1 : Int) : ℝ) / 86400) / 30) -
          Real.exp (-(((now - l2 : Int) : ℝ) / 86400) / 30)) * defaultWeights.recency := by
      simp only [predictScoreSum]
      ring
    nlinarith
  have hpen : 0 < 1 - fr * defaultWeights.failurePenalty := by
    have hp5 : defaultWeights.failurePenalty = 0.5 := rfl
    rw [hp5]
    linarith
  constructor
  · unfold predictScore
    exact mul_le_mul_of_nonneg_right (min_le_min hs2.le le_rfl) hpen.le
  · intro hsum
    unfold predictScore
    apply mul_lt_mul_of_pos_right _ hpen
    rw [min_eq_left hsum.le]
    exact lt_min (by linarith) hsum

/-- Claim C7 (counterexample): when the weighted sum saturates the 1.0
clamp for both candidates (here: exact-directory match, full n-gram
bonus, frecent boost 0.1, ages 0 and 1 day), the two scores tie at 1, so
the more recent candidate is not strictly higher. -/
theorem recencyCounterexample :
    ¬ (predictScore defaultWeights 1 (-86400) 0 1 0 0 1 (1 / 10) <
       predictScore defaultWeights 1 0 0 1 0 0 1 (1 / 10)) := by
  have hexp1 : (29 / 30 : ℝ) ≤ Real.exp (-(1 / 30)) := by
    have h := Real.add_one_le_exp (-(1 / 30) : ℝ)
    linarith
  have h1 : predictScore defaultWeights 1 0 0 1 0 0 1 (1 / 10) = 1 := by
    unfold predictScore predictScoreSum
    norm_num [defaultWeights, Real.log_one, Real.exp_zero]
  have h2 : predictScore defaultWeights 1 (-86400) 0 1 0 0 1 (1 / 10) = 1 := by
    unfold predictScore predictScoreSum
    norm_num [defaultWeights, Real.log_one]
    linarith [hexp1]
  rw [h1, h2]
  exact lt_irrefl _

/-- Claim C7 (witness): an unsaturated candidate used one day ago scores
at most — and in fact strictly below — the same candidate used just now. -/
theorem recencyWitness :
    (predictScore defaultWeights 1 (-86400) 0 0 0 0 0 0 ≤
       predictScore defaultWeights 1 0 0 0 0 0 0 0) ∧
    predictScore defaultWeights 1 (-86400) 0 0 0 0 0 0 <
      predictScore defaultWeights 1 0 0 0 0 0 0 0 := by
  have h := recencyStrictMonotone 1 0 (-86400) 0 0 0 0 0 0 (by norm_num) le_rfl (by norm_num)
  refine ⟨h.1, h.2 ?_⟩
  unfold predictScoreSum
  norm_num [defaultWeights, Real.log_one]
  have : Real.exp (-(1 / 30)) < 1 := by
    rw [Real.exp_lt_one_iff]
    norm_num
  linarith

/-! ## Partial-command flag (claim C9) -/

/-- Claim C9 (counterexample): `"ls\t"` ends with whitespace (a tab), but
the parser's partial flag is false — `is_partial` tests only for the
ASCII space character, not for whitespace in general. -/
theorem partialFlagCounterexample :
    trailingSpace (parseCommand "ls\t") = false ∧
    specEndsWithWhitespace "ls\t" = true := by
  constructor
  · decide
  · decide

/-- Claim C9 (amended): the parser's partial flag is true iff the original
string ends with the space character `' '` (other whitespace does not
count), and predict enters the argument-suggestion branch exactly when
this flag is true and the parsed program is non-empty. -/
theorem partialFlagSpaceOnly :
    (∀ s : String, trailingSpace (parseCommand s) = true ↔ s.data.getLast? = some ' ') ∧
    (∀ pfx : String, expectingArgsFlag pfx =
      (trailingSpace (parseCommand pfx) && !(parseCommand pfx).program.isEmpty)) := by
  constructor
  · intro s
    unfold trailingSpace
    rw [parseCommand_full]
    exact beq_iff_eq
  · intro pfx
    rfl

/-! ## Relational store (`db/mod.rs`): ingestion and deletion

The SQLite connection is modelled as an explicit record of tables.  Each
`conn.execute` of the source is one atomic fallible statement: the oracle
says whether the k-th statement of a call fails, mirroring how an error
propagates through `?` with no surrounding transaction.  Reads are
infallible. -/

/-- One `history` row. -/
structure HistoryRow where
  id : Int
  sessionId : Option Int
  commandId : Int
  placeId : Int
  contextId : Option Int
  startTime : Int
  duration : Option ℚ
  exitStatus : Option Int
  timeBucket : Int
deriving Repr, DecidableEq

/-- One `ngrams_2` row. -/
structure BigramRow where
  prevCommandId : Int
  commandId : Int
  frequency : Nat
  lastUsed : Int
deriving Repr, DecidableEq

/-- One `ngrams_3` row. -/
structure TrigramRow where
  prev2CommandId : Int
  prev1CommandId : Int
  commandId : Int
  frequency : Nat
  lastUsed : Int
deriving Repr, DecidableEq

/-- One `dir_command_freq` row (the table exists and is cleared on delete,
but ingestion never writes it). -/
structure DirFreqRow where
  placeId : Int
  commandId : Int
  frequency : Nat
  lastUsed : Int
deriving Repr, DecidableEq

/-- One `parsed_commands` row. -/
structure ParsedRow where
  commandId : Int
  program : String
  subcommand : Option String
  argsHash : Option String
deriving Repr, DecidableEq

/-- One `arg_patterns` row. -/
structure ArgPatternRow where
  id : Int
  program : String
  subcommand : Option String
  argValue : String
  frequency : Nat
  lastUsed : Int
  placeId : Option Int
deriving Repr, DecidableEq

/-- The database state: one list per table of the schema. -/
structure DB where
  commands : List (Int × String)
  places : List (Int × String × String)
  history : List HistoryRow
  ngrams2 : List BigramRow
  ngrams3 : List TrigramRow
  dirCommandFreq : List DirFreqRow
  parsedCommands : List ParsedRow
  argPatterns : List ArgPatternRow
  frecentPaths : List FrecentRow
deriving Repr, DecidableEq

/-- The freshly migrated empty store. -/
def emptyDB : DB := ⟨[], [], [], [], [], [], [], [], []⟩

/-- `StoreParams` from `protocol.rs`. -/
structure StoreParams where
  cmd : String
  cwd : String
  exitStatus : Option Int
  durationMs : Option Int
  startTime : Option Int
  sessionId : Option Int
  prevCmd : Option String
  prev2Cmd : Option String
deriving Repr, DecidableEq

/-- What `fs::metadata` reports for a path. -/
inductive PathKind where
  | dir
  | file
  | other
deriving Repr, DecidableEq

/-- SQL equality as used by `UNIQUE`/`ON CONFLICT`: `NULL` never equals
`NULL`, so rows with a `NULL` key column never conflict. -/
def sqlEqO {α : Type} [BEq α] : Option α → Option α → Bool
  | some a, some b => a == b
  | _, _ => false

/-- One fallible SQL statement: consult the oracle at the current
statement index; on failure return the untouched state (the statement is
atomic), otherwise apply its effect. -/
def execStmt (oracle : Nat → Bool) (f : DB → DB) (s : Nat × DB) :
    Except DB (Nat × DB) :=
  if oracle s.1 then .error s.2 else .ok (s.1 + 1, f s.2)

/-- `get_or_create_command`: `SELECT id FROM commands WHERE argv = ?`,
else `INSERT` and return `last_insert_rowid`. -/
def getOrCreateCommandF (oracle : Nat → Bool) (argv : String) (s : Nat × DB) :
    Except DB ((Nat × DB) × Int) :=
  match (s.2.commands.find? (fun p => p.2 == argv)) with
  | some p => .ok (s, p.1)
  | none =>
    let newId := nextId (s.2.commands.map (·.1))
    match execStmt oracle
        (fun db => { db with commands := db.commands ++ [(newId, argv)] }) s with
    | .error d => .error d
    | .ok s2 => .ok (s2, newId)

/-- `get_or_create_place`, analogous. -/
def getOrCreatePlaceF (oracle : Nat → Bool) (host dir : String) (s : Nat × DB) :
    Except DB ((Nat × DB) × Int) :=
  match (s.2.places.find? (fun p => p.2.1 == host && p.2.2 == dir)) with
  | some p => .ok (s, p.1)
  | none =>
    let newId := nextId (s.2.places.map (·.1))
    match execStmt oracle
        (fun db => { db with places := db.places ++ [(newId, host, dir)] }) s with
    | .error d => .error d
    | .ok s2 => .ok (s2, newId)

/-- The `ngrams_2` upsert of `update_bigram`. -/
def upsertBigram (rows : List BigramRow) (prevId cmdId : Int) (now : Int) :
    List BigramRow :=
  if rows.any (fun r => r.prevCommandId == prevId && r.commandId == cmdId) then
    rows.map (fun r =>
      if r.prevCommandId == prevId && r.commandId == cmdId then
        { r with frequency := r.frequency + 1, lastUsed := now }
      else r)
  else rows ++ [⟨prevId, cmdId, 1, now⟩]

/-- The `ngrams_3` upsert of `update_trigram`. -/
def upsertTrigram (rows : List TrigramRow) (prev2Id prev1Id cmdId : Int)
    (now : Int) : List TrigramRow :=
  if rows.any (fun r =>
      r.prev2CommandId == prev2Id && r.prev1CommandId == prev1Id && r.commandId == cmdId) then
    rows.map (fun r =>
      if r.prev2CommandId == prev2Id && r.prev1CommandId == prev1Id && r.commandId == cmdId then
        { r with frequency := r.frequency + 1, lastUsed := now }
      else r)
  else rows ++ [⟨prev2Id, prev1Id, cmdId, 1, now⟩]

/-- `INSERT OR REPLACE INTO parsed_commands` (keyed on the primary key
`command_id`). -/
def insertOrReplaceParsed (rows : List ParsedRow) (row : ParsedRow) :
    List ParsedRow :=
  if rows.any (fun r => r.commandId == row.commandId) then
    rows.map (fun r => if r.commandId == row.commandId then row else r)
  else rows ++ [row]

/-- `parsed.args.join(" ").get(..50)`: `None` when the joined string is
shorter than 50 bytes, otherwise its 50-byte head (ASCII boundaries
assumed; the value is never consulted by the claims). -/
def argsHash50 (s : String) : Option String :=
  if s.utf8ByteSize < 50 then none else some (String.mk (s.data.take 50))

/-- The `arg_patterns` upsert: the conflict target
`UNIQUE(program, subcommand, arg_value, place_id)` uses SQL equality, so
a `NULL` subcommand never conflicts and such rows accumulate. -/
def upsertArgPattern (rows : List ArgPatternRow) (prog : String)
    (sub : Option String) (argv : String) (now : Int) (placeId : Option Int) :
    List ArgPatternRow :=
  if rows.any (fun r =>
      r.program == prog && sqlEqO r.subcommand sub && r.argValue == argv &&
        sqlEqO r.placeId placeId) then
    rows.map (fun r =>
      if r.program == prog && sqlEqO r.subcommand sub && r.argValue == argv &&
          sqlEqO r.placeId placeId then
        { r with frequency := r.frequency + 1, lastUsed := now }
      else r)
  else rows ++ [⟨nextId (rows.map (·.id)), prog, sub, argv, 1, now, placeId⟩]

/-- `frecent_add_with_conn` under the oracle: the upsert, then the
`SELECT SUM` read (its errors are swallowed by `unwrap_or`), then — if
aging fires — the decay `UPDATE` and the prune `DELETE`, each a
statement. -/
def frecentAddStmtF (oracle : Nat → Bool) (path pathType : String)
    (rankO : Option ℚ) (tsO : Option Int) (now : Int) (s : Nat × DB) :
    Except DB (Nat × DB) :=
  let ts := tsO.getD now
  match execStmt oracle
      (fun db => { db with frecentPaths := frecentBump db.frecentPaths path pathType rankO ts }) s with
  | .error d => .error d
  | .ok s1 =>
    if 2000 < sumRankType s1.2.frecentPaths pathType then
      match execStmt oracle
          (fun db => { db with frecentPaths := decayType db.frecentPaths pathType }) s1 with
      | .error d => .error d
      | .ok s2 =>
        execStmt oracle
          (fun db => { db with frecentPaths := pruneType db.frecentPaths pathType }) s2
    else .ok s1

/-- `store_parsed_command`: skip when the program is empty, else one
`INSERT OR REPLACE` statement. -/
def storeParsedCommandF (oracle : Nat → Bool) (cmdId : Int) (cmd : String)
    (s : Nat × DB) : Except DB (Nat × DB) :=
  let parsed := parseCommand cmd
  if parsed.program.isEmpty then .ok s
  else
    execStmt oracle (fun db =>
      { db with parsedCommands := (insertOrReplaceParsed db.parsedCommands
          ⟨cmdId, parsed.program, parsed.subcommand,
            argsHash50 (String.intercalate " " parsed.args)⟩) }) s

/-- `store_arg_patterns`: one upsert per learnable argument of byte length
in [2, 100]. -/
def storeArgPatternsF (oracle : Nat → Bool) (cmd : String)
    (placeId : Option Int) (now : Int) (s : Nat × DB) : Except DB (Nat × DB) :=
  let parsed := parseCommand cmd
  (extractLearnableArgs parsed).foldlM (fun s arg =>
    if arg.utf8ByteSize < 2 ∨ 100 < arg.utf8ByteSize then .ok s
    else
      execStmt oracle (fun db =>
        { db with argPatterns := (upsertArgPattern db.argPatterns parsed.program
            parsed.subcommand arg now placeId) }) s) s

/-- Rust `PathBuf::from(cwd).join(arg)` for a relative `arg`. -/
def joinPath (cwd arg : String) : String :=
  if cwd.data.getLast? == some '/' then cwd ++ arg else cwd ++ "/" ++ arg

/-- The per-argument loop of `extract_frecent_paths`: stop once five
path-like arguments were stat-ed; skip flags, non-path-looking long
arguments, `~` when the home directory is unknown, and missing paths;
bump existing directories as `"d"` and files as `"f"`. -/
def frecentArgsLoop (oracle : Nat → Bool) (fs : String → Option PathKind)
    (home : Option String) (cwd : String) (now : Int) :
    List String → Nat → Nat × DB → Except DB (Nat × DB)
  | [], _, s => .ok s
  | arg :: rest, count, s =>
    if 5 ≤ count then .ok s
    else if startsWithChar arg '-' then frecentArgsLoop oracle fs home cwd now rest count s
    else if ¬ arg.data.contains '/' ∧ ¬ arg.data.contains '.' ∧ 50 < arg.utf8ByteSize then
      frecentArgsLoop oracle fs home cwd now rest count s
    else
      let pathO : Option String :=
        if startsWithChar arg '/' then some arg
        else if startsWithChar arg '~' then
          match home with
          | some h => some (h ++ String.mk (arg.data.drop 1))
          | none => none
        else some (joinPath cwd arg)
      match pathO with
      | none => frecentArgsLoop oracle fs home cwd now rest count s
      | some path =>
        match fs path with
        | none => frecentArgsLoop oracle fs home cwd now rest count s
        | some .dir =>
          match frecentAddStmtF oracle path "d" none none now s with
          | .error d => .error d
          | .ok s2 => frecentArgsLoop oracle fs home cwd now rest (count + 1) s2
        | some .file =>
          match frecentAddStmtF oracle path "f" none none now s with
          | .error d => .error d
          | .ok s2 => frecentArgsLoop oracle fs home cwd now rest (count + 1) s2
        | some .other => frecentArgsLoop oracle fs home cwd now rest (count + 1) s

/-- `extract_frecent_paths`: always bump the cwd as a directory, then
walk the parsed arguments. -/
def extractFrecentPathsF (oracle : Nat → Bool) (fs : String → Option PathKind)
    (home : Option String) (cmd cwd : String) (now : Int) (s : Nat × DB) :
    Except DB (Nat × DB) :=
  match frecentAddStmtF oracle cwd "d" none none now s with
  | .error d => .error d
  | .ok s1 =>
    let parsed := parseCommand cmd
    frecentArgsLoop oracle fs home cwd now parsed.args 0 s1

/-- The n-gram block of `store_command` (lines 113-122): when a previous
command is supplied, resolve it and upsert the bigram; when a second
previous command is also supplied, resolve it and upsert the trigram. -/
def storeNgramsF (oracle : Nat → Bool) (prevCmd prev2Cmd : Option String)
    (commandId : Int) (now : Int) (s : Nat × DB) : Except DB (Nat × DB) :=
  match prevCmd with
  | none => .ok s
  | some prev =>
    match getOrCreateCommandF oracle prev s with
    | .error d => .error d
    | .ok (s1, prevId) =>
      match execStmt oracle (fun db =>
          { db with ngrams2 := upsertBigram db.ngrams2 prevId commandId now }) s1 with
      | .error d => .error d
      | .ok s2 =>
        match prev2Cmd with
        | none => .ok s2
        | some prev2 =>
          match getOrCreateCommandF oracle prev2 s2 with
          | .error d => .error d
          | .ok (s3, prev2Id) =>
            execStmt oracle (fun db =>
              { db with ngrams3 := upsertTrigram db.ngrams3 prev2Id prevId commandId now }) s3

/-- `Database::store_command` under the failure oracle: the nine
ingestion steps in source order, with no transaction around them.
Returns the new history id on success; on a statement failure the error
carries the database as the failing statement left it. -/
def storeCommandF (oracle : Nat → Bool) (fs : String → Option PathKind)
    (host : String) (home : Option String) (now : Int) (p : StoreParams)
    (db : DB) : Except DB ((Nat × DB) × Int) :=
  match getOrCreateCommandF oracle p.cmd (0, db) with
  | .error d => .error d
  | .ok (s1, commandId) =>
    match getOrCreatePlaceF oracle host p.cwd s1 with
    | .error d => .error d
    | .ok (s2, placeId) =>
      match execStmt oracle (fun db =>
          { db with history := db.history ++
              [⟨nextId (s2.2.history.map (·.id)), p.sessionId, commandId, placeId, none,
                p.startTime.getD now,
                p.durationMs.map (fun d => (d : ℚ) / 1000), p.exitStatus,
                (((p.startTime.getD now).tmod 86400).tdiv 3600)⟩] }) s2 with
      | .error d => .error d
      | .ok s3 =>
        match storeNgramsF oracle p.prevCmd p.prev2Cmd commandId now s3 with
        | .error d => .error d
        | .ok s4 =>
          match storeParsedCommandF oracle commandId p.cmd s4 with
          | .error d => .error d
          | .ok s5 =>
            match storeArgPatternsF oracle p.cmd (some placeId) now s5 with
            | .error d => .error d
            | .ok s6 =>
              match extractFrecentPathsF oracle fs home p.cmd p.cwd now s6 with
              | .error d => .error d
              | .ok s7 => .ok (s7, nextId (s2.2.history.map (·.id)))

/-- `Database::delete_command`: look up the command id, delete from every
referencing table, delete `arg_patterns` only when the parsed command has
a program and a subcommand, then delete the command row. -/
def deleteCommand (db : DB) (cmd : String) : Except String (DB × Nat) :=
  match db.commands.find? (fun p => p.2 == cmd) with
  | none => .error ("Command not found: " ++ cmd)
  | some pr =>
    let cid := pr.1
    let db1 := { db with
      history := db.history.filter (fun h => !(h.commandId == cid)),
      ngrams2 := db.ngrams2.filter (fun r =>
        !(r.commandId == cid || r.prevCommandId == cid)),
      ngrams3 := db.ngrams3.filter (fun r =>
        !(r.commandId == cid || r.prev1CommandId == cid || r.prev2CommandId == cid)),
      dirCommandFreq := db.dirCommandFreq.filter (fun r => !(r.commandId == cid)),
      parsedCommands := db.parsedCommands.filter (fun r => !(r.commandId == cid)) }
    let parsed := parseCommand cmd
    let db2 :=
      if parsed.program.isEmpty then db1
      else
        match parsed.subcommand with
        | some sub =>
          { db1 with argPatterns := db1.argPatterns.filter (fun a =>
              !(a.program == parsed.program && a.subcommand == some sub)) }
        | none => db1
    let deleted := (db2.commands.filter (fun p => p.1 == cid)).length
    .ok ({ db2 with commands := db2.commands.filter (fun p => !(p.1 == cid)) }, deleted)

/-! ## Claim C1: ingestion is not transactional -/

/-- "The second state extends the first": the `commands` and `history`
tables of the first state are prefixes of the second's — nothing already
committed is ever rolled back by a later failure. -/
def DBExt (d d2 : DB) : Prop :=
  d.commands <+: d2.commands ∧ d.history <+: d2.history

theorem DBExt.rfl (d : DB) : DBExt d d :=
  ⟨List.prefix_rfl, List.prefix_rfl⟩

theorem DBExt.trans {a b c : DB} (h1 : DBExt a b) (h2 : DBExt b c) : DBExt a c :=
  ⟨h1.1.trans h2.1, h1.2.trans h2.2⟩

/-- Soundness of a statement-level computation w.r.t. `DBExt`. -/
def extSound (g : Nat × DB → Except DB (Nat × DB)) : Prop :=
  ∀ s : Nat × DB, (∀ d2, g s = .error d2 → DBExt s.2 d2) ∧
    (∀ r, g s = .ok r → DBExt s.2 r.2)

/-- A single statement whose effect extends the state is `extSound`. -/
theorem execStmt_extSound (oracle : Nat → Bool) (f : DB → DB)
    (hf : ∀ d, DBExt d (f d)) : extSound (execStmt oracle f) := by
  intro s
  unfold execStmt
  by_cases h : oracle s.1 = true
  · rw [if_pos h]
    exact ⟨fun d2 hd2 => (by cases hd2; exact DBExt.rfl _), fun r hr => Except.noConfusion hr⟩
  · rw [if_neg h]
    exact ⟨fun d2 hd2 => Except.noConfusion hd2, fun r hr => (by cases hr; exact hf s.2)⟩

/-- Appending to a table other than `commands`/`history` extends the state. -/
theorem DBExt_same (d d2 : DB) (hc : d2.commands = d.commands)
    (hh : d2.history = d.history) : DBExt d d2 := by
  constructor
  · rw [hc]
  · rw [hh]

theorem getOrCreateCommandF_ext (oracle : Nat → Bool) (argv : String)
    (s : Nat × DB) :
    (∀ d2, getOrCreateCommandF oracle argv s = .error d2 → DBExt s.2 d2) ∧
    (∀ r, getOrCreateCommandF oracle argv s = .ok r → DBExt s.2 r.1.2) := by
  have hstmt := execStmt_extSound oracle
    (fun db => { db with commands := db.commands ++ [(nextId (s.2.commands.map (·.1)), argv)] })
    (fun d => ⟨List.prefix_append _ _, List.prefix_rfl⟩) s
  constructor
  · intro d2 hd2
    simp only [getOrCreateCommandF] at hd2
    split at hd2
    · cases hd2
    · split at hd2
      · rename_i d he
        cases hd2
        exact hstmt.1 d2 he
      · cases hd2
  · intro r hr
    simp only [getOrCreateCommandF] at hr
    split at hr
    · cases hr
      exact DBExt.rfl _
    · split at hr
      · cases hr
      · rename_i s2 he
        cases hr
        exact hstmt.2 s2 he

theorem getOrCreatePlaceF_ext (oracle : Nat → Bool) (host dir : String)
    (s : Nat × DB) :
    (∀ d2, getOrCreatePlaceF oracle host dir s = .error d2 → DBExt s.2 d2) ∧
    (∀ r, getOrCreatePlaceF oracle host dir s = .ok r → DBExt s.2 r.1.2) := by
  have hstmt := execStmt_extSound oracle
    (fun db => { db with places := db.places ++ [(nextId (s.2.places.map (·.1)), host, dir)] })
    (fun d => DBExt_same d _ rfl rfl) s
  constructor
  · intro d2 hd2
    simp only [getOrCreatePlaceF] at hd2
    split at hd2
    · cases hd2
    · split at hd2
      · rename_i d he
        cases hd2
        exact hstmt.1 d2 he
      · cases hd2
  · intro r hr
    simp only [getOrCreatePlaceF] at hr
    split at hr
    · cases hr
      exact DBExt.rfl _
    · split at hr
      · cases hr
      · rename_i s2 he
        cases hr
        exact hstmt.2 s2 he

theorem frecentAddStmtF_extSound (oracle : Nat → Bool) (path pathType : String)
    (rankO : Option ℚ) (tsO : Option Int) (now : Int) :
    extSound (frecentAddStmtF oracle path pathType rankO tsO now) := by
  intro s
  have h1 := execStmt_extSound oracle
    (fun db => { db with frecentPaths := frecentBump db.frecentPaths path pathType rankO ((tsO.getD now)) })
    (fun d => DBExt_same d _ rfl rfl) s
  constructor
  · intro d2 hd2
    simp only [frecentAddStmtF] at hd2
    split at hd2
    · rename_i d he
      cases hd2
      exact h1.1 d2 he
    · rename_i s1 he
      have hext1 : DBExt s.2 s1.2 := h1.2 s1 he
      have h2 := execStmt_extSound oracle
        (fun db => { db with frecentPaths := decayType db.frecentPaths pathType })
        (fun d => DBExt_same d _ rfl rfl) s1
      split at hd2
      · split at hd2
        · rename_i d he2
          cases hd2
          exact hext1.trans (h2.1 d2 he2)
        · rename_i s2 he2
          have hext2 : DBExt s.2 s2.2 := hext1.trans (h2.2 s2 he2)
          have h3 := execStmt_extSound oracle
            (fun db => { db with frecentPaths := pruneType db.frecentPaths pathType })
            (fun d => DBExt_same d _ rfl rfl) s2
          exact hext2.trans (h3.1 d2 hd2)
      · cases hd2
  · intro r hr
    simp only [frecentAddStmtF] at hr
    split at hr
    · cases hr
    · rename_i s1 he
      have hext1 : DBExt s.2 s1.2 := h1.2 s1 he
      have h2 := execStmt_extSound oracle
        (fun db => { db with frecentPaths := decayType db.frecentPaths pathType })
        (fun d => DBExt_same d _ rfl rfl) s1
      split at hr
      · split at hr
        · cases hr
        · rename_i s2 he2
          have hext2 : DBExt s.2 s2.2 := hext1.trans (h2.2 s2 he2)
          have h3 := execStmt_extSound oracle
            (fun db => { db with frecentPaths := pruneType db.frecentPaths pathType })
            (fun d => DBExt_same d _ rfl rfl) s2
          exact hext2.trans (h3.2 r hr)
      · cases hr
        exact hext1

theorem storeParsedCommandF_extSound (oracle : Nat → Bool) (cmdId : Int)
    (cmd : String) : extSound (storeParsedCommandF oracle cmdId cmd) := by
  intro s
  have hstmt := execStmt_extSound oracle (fun db =>
      { db with parsedCommands := (insertOrReplaceParsed db.parsedCommands
          ⟨cmdId, (parseCommand cmd).program, (parseCommand cmd).subcommand,
            argsHash50 (String.intercalate " " (parseCommand cmd).args)⟩) })
    (fun d => DBExt_same d _ rfl rfl) s
  constructor
  · intro d2 hd2
    simp only [storeParsedCommandF] at hd2
    split at hd2
    · cases hd2
    · exact hstmt.1 d2 hd2
  · intro r hr
    simp only [storeParsedCommandF] at hr
    split at hr
    · cases hr
      exact DBExt.rfl _
    · exact hstmt.2 r hr

/-- `foldlM` over `extSound` bodies is `extSound`. -/
theorem foldlM_extSound {α : Type} (l : List α)
    (g : Nat × DB → α → Except DB (Nat × DB))
    (hg : ∀ a, extSound (fun s => g s a)) :
    extSound (fun s => l.foldlM g s) := by
  induction l with
  | nil =>
    intro s
    constructor
    · intro d2 hd2
      cases hd2
    · intro r hr
      cases hr
      exact DBExt.rfl _
  | cons a rest ih =>
    intro s
    have hbody := hg a s
    constructor
    · intro d2 hd2
      simp only [List.foldlM_cons] at hd2
      cases he : g s a with
      | error d =>
        rw [he] at hd2
        cases hd2
        exact hbody.1 d2 he
      | ok s1 =>
        rw [he] at hd2
        exact (hbody.2 s1 he).trans ((ih s1).1 d2 hd2)
    · intro r hr
      simp only [List.foldlM_cons] at hr
      cases he : g s a with
      | error d =>
        rw [he] at hr
        cases hr
      | ok s1 =>
        rw [he] at hr
        exact (hbody.2 s1 he).trans ((ih s1).2 r hr)

theorem storeArgPatternsF_extSound (oracle : Nat → Bool) (cmd : String)
    (placeId : Option Int) (now : Int) :
    extSound (storeArgPatternsF oracle cmd placeId now) := by
  unfold storeArgPatternsF
  apply foldlM_extSound
  intro arg s
  have hstmt := execStmt_extSound oracle (fun db =>
      { db with argPatterns := (upsertArgPattern db.argPatterns (parseCommand cmd).program
          (parseCommand cmd).subcommand arg now placeId) })
    (fun d => DBExt_same d _ rfl rfl) s
  constructor
  · intro d2 hd2
    split at hd2
    · cases hd2
    · exact hstmt.1 d2 hd2
  · intro r hr
    split at hr
    · cases hr
      exact DBExt.rfl _
    · exact hstmt.2 r hr

theorem frecentArgsLoop_extSound (oracle : Nat → Bool)
    (fs : String → Option PathKind) (home : Option String) (cwd : String)
    (now : Int) (args : List String) :
    ∀ count : Nat, extSound (fun s => frecentArgsLoop oracle fs home cwd now args count s) := by
  induction args with
  | nil =>
    intro count s
    exact ⟨fun d2 hd2 => Except.noConfusion hd2,
      fun r hr => (by cases hr; exact DBExt.rfl _)⟩
  | cons arg rest ih =>
    intro count s
    constructor
    · intro d2 hd2
      simp only [frecentArgsLoop] at hd2
      split at hd2
      · cases hd2
      · split at hd2
        · exact (ih count s).1 d2 hd2
        · split at hd2
          · exact (ih count s).1 d2 hd2
          · split at hd2
            · exact (ih count s).1 d2 hd2
            · split at hd2
              · exact (ih count s).1 d2 hd2
              · split at hd2
                · rename_i d he
                  cases hd2
                  exact (frecentAddStmtF_extSound oracle _ "d" none none now s).1 d2 he
                · rename_i s2 he
                  exact ((frecentAddStmtF_extSound oracle _ "d" none none now s).2 s2 he).trans
                    ((ih (count + 1) s2).1 d2 hd2)
              · split at hd2
                · rename_i d he
                  cases hd2
                  exact (frecentAddStmtF_extSound oracle _ "f" none none now s).1 d2 he
                · rename_i s2 he
                  exact ((frecentAddStmtF_extSound oracle _ "f" none none now s).2 s2 he).trans
                    ((ih (count + 1) s2).1 d2 hd2)
              · exact (ih (count + 1) s).1 d2 hd2
    · intro r hr
      simp only [frecentArgsLoop] at hr
      split at hr
      · cases hr
        exact DBExt.rfl _
      · split at hr
        · exact (ih count s).2 r hr
        · split at hr
          · exact (ih count s).2 r hr
          · split at hr
            · exact (ih count s).2 r hr
            · split at hr
              · exact (ih count s).2 r hr
              · split at hr
                · cases hr
                · rename_i s2 he
                  exact ((frecentAddStmtF_extSound oracle _ "d" none none now s).2 s2 he).trans
                    ((ih (count + 1) s2).2 r hr)
              · split at hr
                · cases hr
                · rename_i s2 he
                  exact ((frecentAddStmtF_extSound oracle _ "f" none none now s).2 s2 he).trans
                    ((ih (count + 1) s2).2 r hr)
              · exact (ih (count + 1) s).2 r hr

theorem extractFrecentPathsF_extSound (oracle : Nat → Bool)
    (fs : String → Option PathKind) (home : Option String) (cmd cwd : String)
    (now : Int) : extSound (extractFrecentPathsF oracle fs home cmd cwd now) := by
  intro s
  constructor
  · intro d2 hd2
    simp only [extractFrecentPathsF] at hd2
    split at hd2
    · rename_i d he
      cases hd2
      exact (frecentAddStmtF_extSound oracle cwd "d" none none now s).1 d2 he
    · rename_i s1 he
      exact ((frecentAddStmtF_extSound oracle cwd "d" none none now s).2 s1 he).trans
        ((frecentArgsLoop_extSound oracle fs home cwd now (parseCommand cmd).args 0 s1).1 d2 hd2)
  · intro r hr
    simp only [extractFrecentPathsF] at hr
    split at hr
    · cases hr
    · rename_i s1 he
      exact ((frecentAddStmtF_extSound oracle cwd "d" none none now s).2 s1 he).trans
        ((frecentArgsLoop_extSound oracle fs home cwd now (parseCommand cmd).args 0 s1).2 r hr)

theorem storeNgramsF_extSound (oracle : Nat → Bool) (prevCmd prev2Cmd : Option String)
    (commandId : Int) (now : Int) :
    extSound (storeNgramsF oracle prevCmd prev2Cmd commandId now) := by
  intro s
  constructor
  · intro d2 hd2
    simp only [storeNgramsF] at hd2
    split at hd2
    · cases hd2
    · rename_i prev
      split at hd2
      · rename_i d he
        cases hd2
        exact (getOrCreateCommandF_ext oracle prev s).1 d2 he
      · rename_i s1 prevId he1
        have hx1 : DBExt s.2 s1.2 := (getOrCreateCommandF_ext oracle prev s).2 (s1, prevId) he1
        split at hd2
        · rename_i d he2
          cases hd2
          exact hx1.trans ((execStmt_extSound oracle (fun db =>
            { db with ngrams2 := upsertBigram db.ngrams2 prevId commandId now })
            (fun d => DBExt_same d _ rfl rfl) s1).1 d2 he2)
        · rename_i s2 he2
          have hx2 : DBExt s.2 s2.2 := hx1.trans ((execStmt_extSound oracle (fun db =>
            { db with ngrams2 := upsertBigram db.ngrams2 prevId commandId now })
            (fun d => DBExt_same d _ rfl rfl) s1).2 s2 he2)
          split at hd2
          · cases hd2
          · rename_i prev2
            split at hd2
            · rename_i d he3
              cases hd2
              exact hx2.trans ((getOrCreateCommandF_ext oracle prev2 s2).1 d2 he3)
            · rename_i s3 prev2Id he3
              have hx3 : DBExt s.2 s3.2 :=
                hx2.trans ((getOrCreateCommandF_ext oracle prev2 s2).2 (s3, prev2Id) he3)
              exact hx3.trans ((execStmt_extSound oracle (fun db =>
                { db with ngrams3 := upsertTrigram db.ngrams3 prev2Id prevId commandId now })
                (fun d => DBExt_same d _ rfl rfl) s3).1 d2 hd2)
  · intro r hr
    simp only [storeNgramsF] at hr
    split at hr
    · cases hr
      exact DBExt.rfl _
    · rename_i prev
      split at hr
      · cases hr
      · rename_i s1 prevId he1
        have hx1 : DBExt s.2 s1.2 := (getOrCreateCommandF_ext oracle prev s).2 (s1, prevId) he1
        split at hr
        · cases hr
        · rename_i s2 he2
          have hx2 : DBExt s.2 s2.2 := hx1.trans ((execStmt_extSound oracle (fun db =>
            { db with ngrams2 := upsertBigram db.ngrams2 prevId commandId now })
            (fun d => DBExt_same d _ rfl rfl) s1).2 s2 he2)
          split at hr
          · cases hr
            exact hx2
          · rename_i prev2
            split at hr
            · cases hr
            · rename_i s3 prev2Id he3
              have hx3 : DBExt s.2 s3.2 :=
                hx2.trans ((getOrCreateCommandF_ext oracle prev2 s2).2 (s3, prev2Id) he3)
              exact hx3.trans ((execStmt_extSound oracle (fun db =>
                { db with ngrams3 := upsertTrigram db.ngrams3 prev2Id prevId commandId now })
                (fun d => DBExt_same d _ rfl rfl) s3).2 r hr)

/-- Claim C1 (amended): `store_command` runs its statements sequentially
with no surrounding transaction.  On success the result state extends the
initial one; when a statement fails the caller sees one error, and the
error state still extends the initial state — statements already executed
are left committed, not rolled back. -/
theorem storeCommandNoRollback (oracle : Nat → Bool)
    (fs : String → Option PathKind) (host : String) (home : Option String)
    (now : Int) (p : StoreParams) (db : DB) :
    (∀ d2, storeCommandF oracle fs host home now p db = .error d2 → DBExt db d2) ∧
    (∀ r, storeCommandF oracle fs host home now p db = .ok r → DBExt db r.1.2) := by
  constructor
  · intro d2 hd2
    simp only [storeCommandF] at hd2
    split at hd2
    · rename_i d he
      cases hd2
      exact (getOrCreateCommandF_ext oracle p.cmd (0, db)).1 d2 he
    · rename_i s1 commandId he1
      have hx1 : DBExt db s1.2 := (getOrCreateCommandF_ext oracle p.cmd (0, db)).2 (s1, commandId) he1
      split at hd2
      · rename_i d he
        cases hd2
        exact hx1.trans ((getOrCreatePlaceF_ext oracle host p.cwd s1).1 d2 he)
      · rename_i s2 placeId he2
        have hx2 : DBExt db s2.2 :=
          hx1.trans ((getOrCreatePlaceF_ext oracle host p.cwd s1).2 (s2, placeId) he2)
        split at hd2
        · rename_i d he
          cases hd2
          exact hx2.trans ((execStmt_extSound oracle _
            (by intro d; exact ⟨List.prefix_rfl, List.prefix_append _ _⟩) s2).1 d2 he)
        · rename_i s3 he3
          have hx3 : DBExt db s3.2 := hx2.trans ((execStmt_extSound oracle _
            (by intro d; exact ⟨List.prefix_rfl, List.prefix_append _ _⟩) s2).2 s3 he3)
          split at hd2
          · rename_i d he
            cases hd2
            exact hx3.trans ((storeNgramsF_extSound oracle p.prevCmd p.prev2Cmd commandId now s3).1 d2 he)
          · rename_i s4 he4
            have hx4 : DBExt db s4.2 :=
              hx3.trans ((storeNgramsF_extSound oracle p.prevCmd p.prev2Cmd commandId now s3).2 s4 he4)
            split at hd2
            · rename_i d he
              cases hd2
              exact hx4.trans ((storeParsedCommandF_extSound oracle commandId p.cmd s4).1 d2 he)
            · rename_i s5 he5
              have hx5 : DBExt db s5.2 :=
                hx4.trans ((storeParsedCommandF_extSound oracle commandId p.cmd s4).2 s5 he5)
              split at hd2
              · rename_i d he
                cases hd2
                exact hx5.trans ((storeArgPatternsF_extSound oracle p.cmd (some placeId) now s5).1 d2 he)
              · rename_i s6 he6
                have hx6 : DBExt db s6.2 :=
                  hx5.trans ((storeArgPatternsF_extSound oracle p.cmd (some placeId) now s5).2 s6 he6)
                split at hd2
                · rename_i d he
                  cases hd2
                  exact hx6.trans ((extractFrecentPathsF_extSound oracle fs home p.cmd p.cwd now s6).1 d2 he)
                · cases hd2
  · intro r hr
    simp only [storeCommandF] at hr
    split at hr
    · cases hr
    · rename_i s1 commandId he1
      have hx1 : DBExt db s1.2 := (getOrCreateCommandF_ext oracle p.cmd (0, db)).2 (s1, commandId) he1
      split at hr
      · cases hr
      · rename_i s2 placeId he2
        have hx2 : DBExt db s2.2 :=
          hx1.trans ((getOrCreatePlaceF_ext oracle host p.cwd s1).2 (s2, placeId) he2)
        split at hr
        · cases hr
        · rename_i s3 he3
          have hx3 : DBExt db s3.2 := hx2.trans ((execStmt_extSound oracle _
            (by intro d; exact ⟨List.prefix_rfl, List.prefix_append _ _⟩) s2).2 s3 he3)
          split at hr
          · cases hr
          · rename_i s4 he4
            have hx4 : DBExt db s4.2 :=
              hx3.trans ((storeNgramsF_extSound oracle p.prevCmd p.prev2Cmd commandId now s3).2 s4 he4)
            split at hr
            · cases hr
            · rename_i s5 he5
              have hx5 : DBExt db s5.2 :=
                hx4.trans ((storeParsedCommandF_extSound oracle commandId p.cmd s4).2 s5 he5)
              split at hr
              · cases hr
              · rename_i s6 he6
                have hx6 : DBExt db s6.2 :=
                  hx5.trans ((storeArgPatternsF_extSound oracle p.cmd (some placeId) now s5).2 s6 he6)
                split at hr
                · cases hr
                · rename_i s7 he7
                  cases hr
                  exact hx6.trans ((extractFrecentPathsF_extSound oracle fs home p.cmd p.cwd now s6).2 s7 he7)

/-- Claim C1 (counterexample): storing `"make test"` with previous command
`"make build"` while the fourth statement (the previous-command insert)
fails leaves the caller with one error whose database already contains
the inserted command, place and history rows — the ingestion is not
rolled back and the state differs from the pre-call state. -/
theorem storeCommandAtomicityCounterexample :
    (match storeCommandF (fun k => decide (3 ≤ k)) (fun _ => none) "h" none 1700000000
        ⟨"make test", "/p", some 0, some 100, some 1700000000, some 1, some "make build", none⟩
        emptyDB with
     | .error d2 => decide (d2.history.length = 1) && decide (d2.commands ≠ emptyDB.commands)
     | .ok _ => false) = true := by
  decide

/-- Claim C1 (witness for the amended theorem): a failure at the very
first statement errors out with the initial state, which trivially
extends itself. -/
theorem storeCommandNoRollbackWitness : DBExt emptyDB emptyDB :=
  (storeCommandNoRollback (fun _ => true) (fun _ => none) "h" none 0
    ⟨"ls", "/p", none, none, none, none, none, none⟩ emptyDB).1 emptyDB (by rfl)

/-! ## Claim C3: deletion cleanup -/

set_option maxHeartbeats 1000000 in
/-- Claim C3 (amended): after a successful `delete_command` of command
`c` with id `cid`, no History, Bigram (either role), Trigram (any role),
or ParsedCommand row references `cid` and the command row itself is gone;
`arg_patterns` rows for `c`'s program and subcommand are removed only
when `c` actually has a subcommand — when it has none, the
`arg_patterns` table is left untouched. -/
theorem deleteCommandCleanup (db : DB) (cmd : String) (pr : Int × String)
    (db2 : DB) (n : Nat)
    (hfind : db.commands.find? (fun p => p.2 == cmd) = some pr)
    (hdel : deleteCommand db cmd = .ok (db2, n)) :
    (∀ h ∈ db2.history, ¬ h.commandId = pr.1) ∧
    (∀ r ∈ db2.ngrams2, ¬ r.commandId = pr.1 ∧ ¬ r.prevCommandId = pr.1) ∧
    (∀ r ∈ db2.ngrams3, ¬ r.commandId = pr.1 ∧ ¬ r.prev1CommandId = pr.1 ∧
      ¬ r.prev2CommandId = pr.1) ∧
    (∀ r ∈ db2.parsedCommands, ¬ r.commandId = pr.1) ∧
    (∀ q ∈ db2.commands, ¬ q.1 = pr.1) ∧
    (∀ sub, (parseCommand cmd).program.isEmpty = false →
      (parseCommand cmd).subcommand = some sub →
      ∀ a ∈ db2.argPatterns,
        ¬ (a.program = (parseCommand cmd).program ∧ a.subcommand = some sub)) ∧
    ((parseCommand cmd).subcommand = none → db2.argPatterns = db.argPatterns) := by
  simp only [deleteCommand, hfind] at hdel
  rw [Except.ok.injEq, Prod.mk.injEq] at hdel
  obtain ⟨hdb, hn⟩ := hdel
  have hhist : db2.history = db.history.filter (fun h => !(h.commandId == pr.1)) := by
    rw [← hdb]
    by_cases hprog : (parseCommand cmd).program.isEmpty = true
    · simp [hprog]
    · cases hsub2 : (parseCommand cmd).subcommand <;> simp [hprog, hsub2]
  have hng2 : db2.ngrams2 = db.ngrams2.filter (fun r =>
      !(r.commandId == pr.1 || r.prevCommandId == pr.1)) := by
    rw [← hdb]
    by_cases hprog : (parseCommand cmd).program.isEmpty = true
    · simp [hprog]
    · cases hsub2 : (parseCommand cmd).subcommand <;> simp [hprog, hsub2]
  have hng3 : db2.ngrams3 = db.ngrams3.filter (fun r =>
      !(r.commandId == pr.1 || r.prev1CommandId == pr.1 || r.prev2CommandId == pr.1)) := by
    rw [← hdb]
    by_cases hprog : (parseCommand cmd).program.isEmpty = true
    · simp [hprog]
    · cases hsub2 : (parseCommand cmd).subcommand <;> simp [hprog, hsub2]
  have hpc : db2.parsedCommands = db.parsedCommands.filter (fun r =>
      !(r.commandId == pr.1)) := by
    rw [← hdb]
    by_cases hprog : (parseCommand cmd).program.isEmpty = true
    · simp [hprog]
    · cases hsub2 : (parseCommand cmd).subcommand <;> simp [hprog, hsub2]
  have hcmds : db2.commands = db.commands.filter (fun q => !(q.1 == pr.1)) := by
    rw [← hdb]
    by_cases hprog : (parseCommand cmd).program.isEmpty = true
    · simp [hprog]
    · cases hsub2 : (parseCommand cmd).subcommand <;> simp [hprog, hsub2]
  refine ⟨?_, ?_, ?_, ?_, ?_, ?_, ?_⟩
  · intro h hmem
    rw [hhist] at hmem
    have hk := (List.mem_filter.mp hmem).2
    simpa using hk
  · intro r hmem
    rw [hng2] at hmem
    have hk := (List.mem_filter.mp hmem).2
    simpa using hk
  · intro r hmem
    rw [hng3] at hmem
    have hk := (List.mem_filter.mp hmem).2
    simp at hk
    exact ⟨hk.1.1, hk.1.2, hk.2⟩
  · intro r hmem
    rw [hpc] at hmem
    have hk := (List.mem_filter.mp hmem).2
    simpa using hk
  · intro q hmem
    rw [hcmds] at hmem
    have hk := (List.mem_filter.mp hmem).2
    simpa using hk
  · intro sub hprog hsub a hmem
    have hargs : db2.argPatterns = db.argPatterns.filter (fun a =>
        !(a.program == (parseCommand cmd).program && a.subcommand == some sub)) := by
      rw [← hdb]
      simp [hprog, hsub]
    rw [hargs] at hmem
    have hk := (List.mem_filter.mp hmem).2
    simp at hk
    intro hcon
    rcases hk with hk | hk
    · exact absurd hcon.1 hk
    · exact absurd hcon.2 hk
  · intro hsub
    have hargs : db2.argPatterns = db.argPatterns := by
      rw [← hdb]
      by_cases hprog : (parseCommand cmd).program.isEmpty = true
      · simp [hprog]
      · simp [hprog, hsub]
    exact hargs

def cpParams : StoreParams :=
  ⟨"cp notes.txt backup.txt", "/p", some 0, none, some 1700000000, some 1, none, none⟩

def cpDB : DB :=
  ⟨[(1, "cp notes.txt backup.txt")], [(1, "h", "/p")],
   [⟨1, some 1, 1, 1, none, 1700000000, none, some 0, 22⟩], [], [], [],
   [⟨1, "cp", none, none⟩],
   [⟨1, "cp", none, "notes.txt", 1, 1700000000, some 1⟩,
    ⟨2, "cp", none, "backup.txt", 1, 1700000000, some 1⟩],
   [⟨1, "/p", "d", 1, 1700000000, 1⟩]⟩

set_option maxHeartbeats 4000000 in
/-- Claim C3 (counterexample): storing `cp notes.txt backup.txt` from an
empty database succeeds and records two `arg_patterns` rows for program
`cp` (which has no subcommand), yet deleting that very command leaves
both rows behind — the `arg_patterns` cleanup only runs when the parsed
command has a subcommand. -/
theorem deleteCommandArgPatternsLeftoverCounterexample :
    storeCommandF (fun _ => false) (fun _ => none) "h" none 1700000000 cpParams emptyDB
      = .ok ((7, cpDB), 1)
    ∧ (cpDB.argPatterns.filter (fun a => a.program == "cp")).length = 2
    ∧ (parseCommand "cp notes.txt backup.txt").subcommand = none
    ∧ (match deleteCommand cpDB "cp notes.txt backup.txt" with
        | .ok (db2, _) =>
            ((db2.argPatterns.filter (fun a => a.program == "cp")).length == 2)
        | .error _ => false) = true := by
  refine ⟨?_, by decide, by decide, ?_⟩
  · have h1 : ("cp" : String).isEmpty = false := by decide
    have h2 : (Int.tmod 1700000000 86400).tdiv 3600 = 22 := by decide
    have h3 : ((" ".intercalate ["notes.txt", "backup.txt"]).utf8ByteSize) = 20 := by decide
    have h4 : (("notes.txt" : String).utf8ByteSize) = 9 := by decide
    have h5 : (("backup.txt" : String).utf8ByteSize) = 10 := by decide
    have hc1 : (("notes.txt" : String).data.contains '/') = false := by decide
    have hc2 : (("notes.txt" : String).data.contains '.') = true := by decide
    have hc3 : (("backup.txt" : String).data.contains '/') = false := by decide
    have hc4 : (("backup.txt" : String).data.contains '.') = true := by decide
    simp [storeCommandF, getOrCreateCommandF, getOrCreatePlaceF, execStmt, storeNgramsF,
      storeParsedCommandF, storeArgPatternsF, extractFrecentPathsF, frecentArgsLoop,
      frecentAddStmtF, frecentBump, frecentFind, sumRankType, emptyDB, nextId,
      upsertArgPattern, insertOrReplaceParsed, argsHash50, sqlEqO, joinPath,
      extractLearnableArgs, parseCommand, tokenize, tokenizeGo, trimWS, startsWithChar,
      asciiLower, asciiLowerChar, subcommandPrograms, valueFlagList, cpParams, cpDB,
      List.foldlM, Except.bind, Except.pure, Except.map, bind, pure,
      h1, h2, h3, h4, h5, hc1, hc2, hc3, hc4]
  · decide

def gcDB : DB :=
  ⟨[(1, "git checkout main")], [(1, "h", "/p")],
   [⟨1, some 1, 1, 1, none, 1700000000, none, some 0, 22⟩], [], [], [],
   [⟨1, "git", some "checkout", none⟩],
   [⟨1, "git", some "checkout", "main", 1, 1700000000, some 1⟩],
   []⟩

def gcDB2 : DB :=
  ⟨[], [(1, "h", "/p")], [], [], [], [], [], [], []⟩

/-- Claim C3 (witness for the amended theorem): deleting
`git checkout main` from a one-command database removes its history,
n-gram, parsed-command and command rows and, since the command has the
subcommand `checkout`, its `arg_patterns` row as well. -/
theorem deleteCommandCleanupWitness :
    (∀ h ∈ gcDB2.history, ¬ h.commandId = ((1 : Int), "git checkout main").1) ∧
    (∀ r ∈ gcDB2.ngrams2, ¬ r.commandId = ((1 : Int), "git checkout main").1 ∧
      ¬ r.prevCommandId = ((1 : Int), "git checkout main").1) ∧
    (∀ r ∈ gcDB2.ngrams3, ¬ r.commandId = ((1 : Int), "git checkout main").1 ∧
      ¬ r.prev1CommandId = ((1 : Int), "git checkout main").1 ∧
      ¬ r.prev2CommandId = ((1 : Int), "git checkout main").1) ∧
    (∀ r ∈ gcDB2.parsedCommands, ¬ r.commandId = ((1 : Int), "git checkout main").1) ∧
    (∀ q ∈ gcDB2.commands, ¬ q.1 = ((1 : Int), "git checkout main").1) ∧
    (∀ sub, (parseCommand "git checkout main").program.isEmpty = false →
      (parseCommand "git checkout main").subcommand = some sub →
      ∀ a ∈ gcDB2.argPatterns,
        ¬ (a.program = (parseCommand "git checkout main").program ∧
           a.subcommand = some sub)) ∧
    ((parseCommand "git checkout main").subcommand = none →
      gcDB2.argPatterns = gcDB.argPatterns) :=
  deleteCommandCleanup gcDB "git checkout main" (1, "git checkout main") gcDB2 1
    (by decide) (by rfl)
